import Mathlib

/-!
Verification of the PlayStationDiscImageTools repository.

The repository consists of four Python scripts:
  * `01_createSingleBinCue.py`   — cue location / synthesis (`synthesize_cue`,
    `locate_or_build_cue`),
  * `02_tagBinCuePairsWithIDs.py` — PS1 tagging (`normalize_code`,
    `find_disc_code`, rename planning in `main`),
  * `03_compressBinCueGames.py`  — grouping (`strip_code`,
    `strip_disc_markers`, `normalize_title`, `game_key_from_stem`),
  * `04_tagPs2IsosWithIDs.py`    — PS2 tagging (`normalize_code`,
    `find_disc_code`, `extract_code_from_name`, `build_new_stem`,
    rename planning in `main`).

This file shallowly embeds the string/byte processing core of those scripts.
Strings are modelled as Lean `String`/`List Char` (the scripts only ever deal
with ASCII product codes; Python's `upper`/`lower` agree with `Char.toUpper`/
`Char.toLower` on ASCII, which is the domain of all claims).  Byte streams are
modelled as `List Char` of their ASCII decoding, which is faithful for the
pattern matching the scripts perform (the regexes only match ASCII bytes).

Python regular expressions are embedded as explicit matchers.  Every regex in
the sources has the property that greedy matching with backtracking is
deterministic (each quantified class is disjoint from the literal that follows
it), which the matchers below exploit; comments at each matcher recall the
regex it embeds.
-/

/-! ## Generic character/list utilities -/

/-- Python `\s` for the ASCII range: space, tab, newline, carriage return,
form feed, vertical tab. -/
def isWSChar (c : Char) : Bool :=
  c = ' ' || c = '\t' || c = '\n' || c = '\r' || c = '\x0c' || c = '\x0b'

/-- Length of the longest prefix of `l` all of whose characters satisfy `p`
(the length a greedy `p*` consumes). -/
def countWhile (p : Char → Bool) : List Char → Nat
  | [] => 0
  | c :: rest => if p c then countWhile p rest + 1 else 0

theorem countWhile_le_length (p : Char → Bool) (l : List Char) :
    countWhile p l ≤ l.length := by
  induction l with
  | nil => simp [countWhile]
  | cons c rest ih =>
    simp only [countWhile, List.length_cons]
    split <;> omega

theorem countWhile_append_of_not (p : Char → Bool) (u v : List Char) (b : Char)
    (hb : p b = false) : countWhile p (u ++ b :: v) = countWhile p u := by
  induction u with
  | nil => simp [countWhile, hb]
  | cons c rest ih => simp [countWhile, ih]

theorem countWhile_append_of_all (p : Char → Bool) (u v : List Char)
    (hu : ∀ c ∈ u, p c = true) :
    countWhile p (u ++ v) = u.length + countWhile p v := by
  induction u with
  | nil => simp
  | cons c rest ih =>
    have hc : p c = true := hu c (by simp)
    have ih' := ih (fun d hd => hu d (by simp [hd]))
    rw [List.cons_append]
    simp only [countWhile, hc, if_true, List.length_cons, List.append_eq] at ih' ⊢
    omega

theorem countWhile_append_of_lt (p : Char → Bool) (u v : List Char)
    (h : countWhile p u < u.length) :
    countWhile p (u ++ v) = countWhile p u := by
  induction u with
  | nil => simp at h
  | cons c rest ih =>
    rw [List.cons_append]
    by_cases hc : p c = true
    · have hlt : countWhile p rest < rest.length := by
        simp [countWhile, hc] at h
        omega
      simp [countWhile, hc, ih hlt]
    · have hc' : p c = false := by simpa using hc
      simp [countWhile, hc']

theorem all_of_countWhile_eq_length (p : Char → Bool) (l : List Char)
    (h : countWhile p l = l.length) : ∀ c ∈ l, p c = true := by
  induction l with
  | nil => simp
  | cons c rest ih =>
    by_cases hc : p c = true
    · simp [countWhile, hc] at h
      intro d hd
      rcases List.mem_cons.mp hd with h1 | h1
      · simpa [h1] using hc
      · exact ih (by omega) d h1
    · have hc' : p c = false := by simpa using hc
      simp [countWhile, hc'] at h

theorem head_of_countWhile_pos (p : Char → Bool) (l : List Char)
    (h : 0 < countWhile p l) : ∃ c rest, l = c :: rest ∧ p c = true := by
  cases l with
  | nil => simp [countWhile] at h
  | cons c rest =>
    refine ⟨c, rest, rfl, ?_⟩
    by_contra hc
    simp only [Bool.not_eq_true] at hc
    simp [countWhile, hc] at h

/-! ## `normalize_code` (02 line 28, 04 line 25)

Python: `raw.replace("_", "-").replace(".", "").upper()`.
`str.replace` with a single-character pattern is a character map (for `"_"`)
respectively a character filter (for `"."`); `str.upper()` is `Char.toUpper`
on the ASCII domain. -/

def normalize_code (raw : String) : String :=
  String.mk
    (((raw.data.map fun c => if c = '_' then '-' else c).filter
        fun c => c ≠ '.').map Char.toUpper)

/-! ## Cue synthesis (01 lines 79–103) and cue location (01 lines 121–131) -/

/-- Python `f"{n:02d}"` for a natural number. -/
def fmt2 (n : Nat) : String :=
  if n < 10 then "0" ++ toString n else toString n

/-- Python: `f'FILE "{bin_base}" BINARY\n'`. -/
def fileLine (name : String) : String := "FILE \"" ++ name ++ "\" BINARY\n"

/-- The TRACK line `synthesize_cue` emits for track number `n`:
`MODE2/2352` for track 1, `AUDIO` otherwise. -/
def trackModeLine (n : Nat) : String :=
  if n = 1 then "  TRACK " ++ fmt2 n ++ " MODE2/2352\n"
  else "  TRACK " ++ fmt2 n ++ " AUDIO\n"

/-- Python: `"    INDEX 01 00:00:00\n"` (every track starts at 00:00:00). -/
def indexLine : String := "    INDEX 01 00:00:00\n"

/-- The `for bin_path in bins` loop of `synthesize_cue` (01 lines 91–101),
carrying `track_num`. -/
def synthLoop : Nat → List String → List String
  | _, [] => []
  | n, b :: rest =>
    fileLine b :: trackModeLine n :: indexLine :: synthLoop (n + 1) rest

/-- The cue text (as a list of lines) produced by `synthesize_cue`
(01 lines 79–103).  The input list models `bins` (already sorted by filename,
as `find_with_depth` returns sorted paths). -/
def synthesize_cue_lines (bins : List String) : List String :=
  if bins.length = 1 then
    [fileLine bins.headI, "  TRACK 01 MODE2/2352\n", "    INDEX 01 00:00:00\n"]
  else synthLoop 1 bins

/-- Result of `locate_or_build_cue`: an existing cue path, or a synthesized
cue (01 lines 121–131). -/
inductive CueSource where
  | existing (path : String)
  | synthesized (cueLines : List String)
deriving DecidableEq

/-- `locate_or_build_cue` (01 lines 121–131): `cues` and `bins` model the
sorted results of the two `find_with_depth` calls.  Returns `none` exactly
when neither a cue nor any bin was found ("No CUE or BIN files found;
skipping"), so that `synthesize_cue` is never invoked on an empty track
set. -/
def locate_or_build_cue (cues bins : List String) : Option CueSource :=
  match cues with
  | c :: _ => some (.existing c)
  | [] =>
    if bins.isEmpty then none
    else some (.synthesized (synthesize_cue_lines bins))

/-- The cue files written by `locate_or_build_cue` (via
`synthesize_cue`'s `cue_path.write_text`): one synthesized cue text when
synthesis runs, nothing otherwise. -/
def locate_or_build_cue_written (cues bins : List String) : List (List String) :=
  match cues with
  | _ :: _ => []
  | [] =>
    if bins.isEmpty then [] else [synthesize_cue_lines bins]

/-! ## Rename planning: collision policy (02 lines 139–144, 04 lines 87–89) -/

/-- The conflict test of 04 line 87 (`if new_path.exists() and new_path != iso`)
and 02 lines 139/142: `existing` models the set of filenames present on the
filesystem, `src` the source path, `tgt` the proposed target. -/
def conflict_skip (existing : List String) (src tgt : String) : Bool :=
  existing.contains tgt && tgt != src

/-- The planning loop restricted to the collision policy: a proposed rename
`(src, tgt)` survives into `work_items` only if `conflict_skip` does not
fire. -/
def plan_renames (existing : List String) (proposals : List (String × String)) :
    List (String × String) :=
  proposals.filter fun pr => !conflict_skip existing pr.1 pr.2

/-! ## Filesystem effects of the drivers (dry-run behaviour)

02 lines 154–166, 04 lines 98–104, 03 lines 113–135: each driver first plans,
then — only when not in dry-run mode — mutates the filesystem.  The effect
lists below record exactly the mutations each execution phase performs. -/

inductive FsEffect where
  | renameFile (src dst : String)
  | rewriteCue (path : String) (newBin : String)
  | deleteFile (path : String)
  | createArchive (name : String) (files : List String)
deriving DecidableEq

/-- Execution phase of 04 `main` (lines 98–104): `if args.dry_run: … return 0`
precedes the rename loop, so dry runs perform nothing. -/
def tag_iso_effects (dry_run : Bool) (work_items : List (String × String)) :
    List FsEffect :=
  if dry_run then []
  else work_items.map fun it => .renameFile it.1 it.2

/-- A work item of 02 `main`: `(bin_path, cue_path?, new_bin, new_cue?)`. -/
structure BinCueItem where
  binPath : String
  cuePath : Option String
  newBin : String
  newCue : Option String

/-- Execution phase of 02 `main` (lines 154–166): `if args.dry_run: … return 0`
precedes the loop that rewrites cue FILE lines and renames the pair. -/
def tag_bincue_effects (dry_run : Bool) (items : List BinCueItem) :
    List FsEffect :=
  if dry_run then []
  else
    items.flatMap fun it =>
      (match it.cuePath with
       | some cue => [.rewriteCue cue it.newBin]
       | none => []) ++
      [.renameFile it.binPath it.newBin] ++
      (match it.cuePath, it.newCue with
       | some cue, some newCue => [.renameFile cue newCue]
       | _, _ => [])

/-- Filesystem effects of 03 `build_archive` (lines 99–135): when the archive
exists and overwrite is off, skip; otherwise unlink the old archive only when
`not dry_run` (line 117) and create the archive only when `not dry_run`
(lines 120–135). -/
def build_archive_effects (archive_name : String) (rel_files : List String)
    (archive_exists overwrite dry_run : Bool) : List FsEffect :=
  if archive_exists && !overwrite then []
  else
    (if archive_exists && !dry_run then [.deleteFile archive_name] else []) ++
    (if dry_run then [] else [.createArchive archive_name rel_files])

/-! ## Grouping-key derivation (03 lines 27–61)

`CODE_SUFFIX_RE = \s*\[S[LC][A-Z]{2}[A-Z]?-?\d+\]\s*$` (IGNORECASE),
`DISC_MARKER_REPS = [(?i)\s*\(disc\s*\d+\), (?i)[ _-]*disc[_-]?\s*\d+]`,
both substituted by the empty string; `normalize_title` replaces `_` by a
space, collapses whitespace runs and strips.  Each regex is deterministic
under greedy matching because every quantified class is disjoint from the
literal that follows it, so the matchers below need no backtracking. -/

/-- Matches `[A-Z]?-?\d+\]\s*$` (IGNORECASE) against the entire list.  The
optional letter is taken exactly when present (skipping it cannot succeed,
since a letter starts neither `-` nor `\d`), likewise the optional `-`. -/
def codeSuffixTail (l : List Char) : Bool :=
  let l1 := match l with
    | c :: rest => if c.isAlpha then rest else l
    | [] => l
  let l2 := match l1 with
    | '-' :: rest => rest
    | _ => l1
  let d := countWhile Char.isDigit l2
  decide (1 ≤ d) && (match l2.drop d with
    | ']' :: ws => ws.all isWSChar
    | _ => false)

/-- Matches `\s*\[S[LC][A-Z]{2}[A-Z]?-?\d+\]\s*$` (IGNORECASE) against the
entire list (the `$`-anchored `CODE_SUFFIX_RE` of 03, tried at one start
position). -/
def matchCodeSuffix (l : List Char) : Bool :=
  let w := countWhile isWSChar l
  match l.drop w with
  | '[' :: c1 :: c2 :: c3 :: c4 :: rest =>
    (c1 = 'S' || c1 = 's') &&
    (c2 = 'L' || c2 = 'l' || c2 = 'C' || c2 = 'c') &&
    c3.isAlpha && c4.isAlpha && codeSuffixTail rest
  | _ => false

/-- Leftmost start position at which `CODE_SUFFIX_RE` matches (and, being
`$`-anchored, consumes the rest of the string). -/
def codeSuffixIdx : List Char → Option Nat
  | [] => none
  | c :: rest =>
    if matchCodeSuffix (c :: rest) then some 0
    else (codeSuffixIdx rest).map (· + 1)

/-- `strip_code` (03 lines 37–38): `CODE_SUFFIX_RE.sub("", text)`. -/
def strip_code (s : String) : String :=
  match codeSuffixIdx s.data with
  | some i => String.mk (s.data.take i)
  | none => s

/-- The four letters of `disc`, case-insensitively. -/
def isDiscWord (d i s c : Char) : Bool :=
  (d = 'd' || d = 'D') && (i = 'i' || i = 'I') && (s = 's' || s = 'S')
    && (c = 'c' || c = 'C')

/-- Match of `(?i)\s*\(disc\s*\d+\)` at the head of the list, returning the
matched length. -/
def matchParenDisc (l : List Char) : Option Nat :=
  let w := countWhile isWSChar l
  match l.drop w with
  | '(' :: d :: i :: s :: c :: rest =>
    if isDiscWord d i s c then
      let w2 := countWhile isWSChar rest
      let rest2 := rest.drop w2
      let dg := countWhile Char.isDigit rest2
      if 1 ≤ dg then
        match rest2.drop dg with
        | ')' :: _ => some (w + 1 + 4 + w2 + dg + 1)
        | _ => none
      else none
    else none
  | _ => none

/-- The class `[ _-]` of the bare disc-marker pattern. -/
def isBareSep (c : Char) : Bool := c = ' ' || c = '_' || c = '-'

/-- Match of `(?i)[ _-]*disc[_-]?\s*\d+` at the head of the list, returning
the matched length (the optional `[_-]` is taken exactly when present, since
skipping it cannot lead to `\s*\d+` succeeding on a `_`/`-`). -/
def matchBareDisc (l : List Char) : Option Nat :=
  let w := countWhile isBareSep l
  match l.drop w with
  | d :: i :: s :: c :: rest =>
    if isDiscWord d i s c then
      let sr : Nat × List Char :=
        match rest with
        | c2 :: r2 => if c2 = '_' || c2 = '-' then (1, r2) else (0, rest)
        | [] => (0, rest)
      let w2 := countWhile isWSChar sr.2
      let rest3 := sr.2.drop w2
      let dg := countWhile Char.isDigit rest3
      if 1 ≤ dg then some (w + 4 + sr.1 + w2 + dg) else none
    else none
  | _ => none

/-- Python `re.sub(pattern, "", text)` for a matcher `m` that reports the
length of a match at the head: scan left to right, delete each leftmost
non-overlapping match, resume at its end.  The fuel (initialised to the
input length) only serves structural recursion; every matcher used here
consumes at least one character per match, so the fuel is never exhausted. -/
def gsubAux (m : List Char → Option Nat) : Nat → List Char → List Char
  | 0, l => l
  | _ + 1, [] => []
  | fuel + 1, c :: rest =>
    match m (c :: rest) with
    | some n => gsubAux m fuel ((c :: rest).drop n)
    | none => c :: gsubAux m fuel rest

def gsub (m : List Char → Option Nat) (l : List Char) : List Char :=
  gsubAux m l.length l

/-- `strip_disc_markers` (03 lines 41–44): substitute the parenthesized form
first, then the bare form, each globally by the empty string. -/
def strip_disc_markers (s : String) : String :=
  String.mk (gsub matchBareDisc (gsub matchParenDisc s.data))

/-- `re.sub(r"\s+", " ", text)`: every maximal whitespace run becomes one
space; the flag records whether the previous character was whitespace. -/
def collapseWSAux : Bool → List Char → List Char
  | _, [] => []
  | prevWS, c :: rest =>
    if isWSChar c then
      if prevWS then collapseWSAux true rest
      else ' ' :: collapseWSAux true rest
    else c :: collapseWSAux false rest

/-- Python `str.strip()` on the ASCII whitespace class. -/
def pyStripWS (l : List Char) : List Char :=
  ((l.dropWhile isWSChar).reverse.dropWhile isWSChar).reverse

/-- `normalize_title` (03 lines 47–51): underscores to spaces, collapse
whitespace, trim. -/
def normalize_title (s : String) : String :=
  String.mk (pyStripWS (collapseWSAux false (s.data.map fun c => if c = '_' then ' ' else c)))

/-- Python `str.lower()` on the ASCII domain, as a character map. -/
def pyLower (s : String) : String := String.mk (s.data.map Char.toLower)

/-- `game_key_from_stem` (03 lines 54–61): the grouping key is the
lowercased cleaned title, the display name the cleaned title itself. -/
def game_key_from_stem (stem : String) : String × String :=
  let cleaned := normalize_title (strip_disc_markers (strip_code stem))
  (pyLower cleaned, cleaned)

/-! ## Product-code grammar (02 lines 20–22, 04 lines 19–20)

04: `ID_BYTES_RE = ([A-Z]{4,5}[-_][0-9]{3,5}(?:\.[0-9]{2})?)` over bytes
(case-sensitive) and `NAME_CODE_RE`, the same pattern with `re.IGNORECASE`,
over filename stems.  The two differ only in the letter class, so the
matcher is parameterised by it: `Char.isUpper` for the byte pattern,
`Char.isAlpha` for the ignore-case name pattern.

Greedy matching of this pattern is deterministic except for the letter
count: `{4,5}` tries five letters, then four (the digit run cannot give
letters back, and the optional `\.[0-9]{2}` group cannot consume digits of
the run since it must start with a literal dot). -/

/-- Match of `[0-9]{3,5}(?:\.[0-9]{2})?` at the head (greedy: up to five
digits, then the optional dot group), returning the matched length. -/
def matchTailDigits (l : List Char) : Option Nat :=
  let d := min (countWhile Char.isDigit l) 5
  if d < 3 then none
  else
    match l.drop d with
    | '.' :: a :: b :: _ => if a.isDigit && b.isDigit then some (d + 3) else some d
    | _ => some d

/-- One letter-count alternative: `k` letters, a `[-_]` separator, then the
digit tail. -/
def tryLetters (letter : Char → Bool) (l : List Char) (k : Nat) : Option Nat :=
  if k ≤ countWhile letter l then
    match l.drop k with
    | c :: rest =>
      if c = '-' ∨ c = '_' then (matchTailDigits rest).map (fun t => k + 1 + t)
      else none
    | [] => none
  else none

/-- Match of the full code grammar at the head of the list (five letters
first, then four — Python's greedy `{4,5}`), returning the matched
length. -/
def matchCodeLen (letter : Char → Bool) (l : List Char) : Option Nat :=
  match tryLetters letter l 5 with
  | some n => some n
  | none => tryLetters letter l 4

/-- Python `re.search`: leftmost match position and its length. -/
def searchCode (letter : Char → Bool) : List Char → Option (Nat × Nat)
  | [] => none
  | c :: rest =>
    match matchCodeLen letter (c :: rest) with
    | some n => some (0, n)
    | none => (searchCode letter rest).map (fun pr => (pr.1 + 1, pr.2))

/-- Python `re.findall` count: leftmost non-overlapping matches, resuming
after each match.  The fuel (initialised to the list length) only serves
structural recursion; every match consumes at least one character. -/
def countCodesAux (letter : Char → Bool) : Nat → List Char → Nat
  | 0, _ => 0
  | _ + 1, [] => 0
  | fuel + 1, c :: rest =>
    match matchCodeLen letter (c :: rest) with
    | some n => 1 + countCodesAux letter fuel ((c :: rest).drop n)
    | none => countCodesAux letter fuel rest

/-- `countCodesAux` at its canonical fuel (the list length). -/
def ccList (letter : Char → Bool) (l : List Char) : Nat :=
  countCodesAux letter l.length l

/-- Number of grammar-matching code tokens in a stem (ignore-case name
grammar, non-overlapping scan). -/
def count_code_tokens (s : String) : Nat :=
  ccList Char.isAlpha s.data

/-! ## Filename tagging (04 lines 48–56; 02's `main` lines 129–133 inlines
the same construction for the PS1 name pattern) -/

/-- `extract_code_from_name` (04 lines 48–50), applied to a stem: the text
of the first `NAME_CODE_RE` match, if any. -/
def extract_code_from_name (stem : String) : Option String :=
  (searchCode Char.isAlpha stem.data).map fun pn =>
    String.mk ((stem.data.drop pn.1).take pn.2)

/-- Python `str.rstrip()` on the ASCII whitespace class. -/
def pyRStripWS (l : List Char) : List Char :=
  (l.reverse.dropWhile isWSChar).reverse

/-- `build_new_stem` (04 lines 53–56): with a code already present, replace
the first `NAME_CODE_RE` match by the canonical code
(`NAME_CODE_RE.sub(code, stem, count=1)`); otherwise append
`f"{stem.rstrip()} [{code}]"`. -/
def build_new_stem (stem code : String) (has_code : Bool) : String :=
  if has_code then
    match searchCode Char.isAlpha stem.data with
    | some pn => String.mk (stem.data.take pn.1 ++ code.data ++ stem.data.drop (pn.1 + pn.2))
    | none => stem
  else String.mk (pyRStripWS stem.data) ++ " [" ++ code ++ "]"

/-- A canonical ProductCode (spec §3): four or five uppercase letters, one
hyphen, three to five digits. -/
def isCanonicalCode (s : String) : Bool :=
  (countWhile Char.isUpper s.data = 4 || countWhile Char.isUpper s.data = 5) &&
  (match s.data.drop (countWhile Char.isUpper s.data) with
   | '-' :: ds => decide (3 ≤ ds.length) && decide (ds.length ≤ 5) && ds.all Char.isDigit
   | _ => false)

/-! ## Byte-content scan (04 lines 21–45; 02 lines 24–48 is identical with
the PS1 byte pattern) -/

def MAX_SCAN : Nat := 64 * 1024 * 1024
def READ_CHUNK : Nat := 4 * 1024 * 1024

/-- The chunks `handle.read(READ_CHUNK)` yields for a stream: consecutive
pieces of `k` bytes (the last possibly shorter).  Fuel-driven structural
recursion; fuel is initialised to the stream length and suffices whenever
`1 ≤ k`. -/
def chunkListAux (k : Nat) : Nat → List Char → List (List Char)
  | _, [] => []
  | 0, _ :: _ => []
  | fuel + 1, c :: rest => (c :: rest).take k :: chunkListAux k fuel ((c :: rest).drop k)

def chunkList (k : Nat) (l : List Char) : List (List Char) :=
  chunkListAux k l.length l

/-- The scan loop of `find_disc_code` (04 lines 33–45): per chunk, search;
on a match return the normalized match text; otherwise stop once the
scanned byte count reaches `MAX_SCAN` (the count is incremented before the
cap test, so every fetched chunk is searched). -/
def find_disc_code_go : List (List Char) → Nat → Option String
  | [], _ => none
  | chunk :: rest, scanned =>
    if chunk.isEmpty then none
    else
      match searchCode Char.isUpper chunk with
      | some pn => some (normalize_code (String.mk ((chunk.drop pn.1).take pn.2)))
      | none =>
        if MAX_SCAN ≤ scanned + chunk.length then none
        else find_disc_code_go rest (scanned + chunk.length)

/-- `find_disc_code` (04 lines 31–45) over the modelled byte stream. -/
def find_disc_code (stream : List Char) : Option String :=
  find_disc_code_go (chunkList READ_CHUNK stream) 0

/-- Total length of the first `i` chunks (the `scanned` counter before
chunk `i` is read). -/
def cumLen (cs : List (List Char)) (i : Nat) : Nat :=
  ((cs.take i).map List.length).sum

/-- A stream whose only code occurrence straddles the first 4 MiB chunk
boundary: the code starts two bytes before the boundary. -/
def straddle_stream : List Char :=
  List.replicate (READ_CHUNK - 2) ' ' ++ "SLUS-00594".data

/-! # Claims -/

/-- C1: for every raw code token, `normalize_code` replaces every `'_'` with
`'-'`, deletes every `'.'`, and uppercases the result — character for
character, with no zero-padding (the output length is the input length minus
the number of deleted dots); in particular
`normalize("SLUS_005.94") = "SLUS-00594"`,
`normalize("SLES_509.50") = "SLES-50950"`, and
`normalize("SCUS-94900") = "SCUS-94900"`. -/
theorem C1_normalize_code :
    (normalize_code "SLUS_005.94" = "SLUS-00594"
      ∧ normalize_code "SLES_509.50" = "SLES-50950"
      ∧ normalize_code "SCUS-94900" = "SCUS-94900")
    ∧ (∀ raw : String,
        (normalize_code raw).data
          = (raw.data.filter fun c => c ≠ '.').map
              (fun c => Char.toUpper (if c = '_' then '-' else c))
        ∧ (normalize_code raw).length
          = raw.length - (raw.data.filter fun c => c = '.').length) := by
  have hdata : ∀ l : List Char,
      (l.map fun c => if c = '_' then '-' else c).filter (fun c => c ≠ '.')
        = (l.filter fun c => c ≠ '.').map (fun c => if c = '_' then '-' else c) := by
    intro l
    rw [List.filter_map]
    refine congrArg _ (List.filter_congr ?_)
    intro c _
    show decide ((if c = '_' then '-' else c) ≠ '.') = decide (c ≠ '.')
    by_cases hu : c = '_'
    · subst hu
      decide
    · rw [if_neg hu]
  have hcount : ∀ l : List Char,
      (l.filter fun c => c ≠ '.').length = l.length - (l.filter fun c => c = '.').length := by
    intro l
    have hpart : l.length = (l.filter fun c => decide (c = '.')).length
        + (l.filter fun a => !decide (a = '.')).length :=
      List.length_eq_length_filter_add _
    have hcongr : l.filter (fun c => c ≠ '.') = l.filter (fun a => !decide (a = '.')) := by
      refine List.filter_congr ?_
      intro c _
      show decide (c ≠ '.') = !decide (c = '.')
      exact decide_not
    rw [hcongr]
    omega
  refine ⟨⟨by decide, by decide, by decide⟩, fun raw => ⟨?_, ?_⟩⟩
  · show (((raw.data.map fun c => if c = '_' then '-' else c).filter
        fun c => c ≠ '.').map Char.toUpper) = _
    rw [hdata raw.data, List.map_map]
    rfl
  · show (((raw.data.map fun c => if c = '_' then '-' else c).filter
        fun c => c ≠ '.').map Char.toUpper).length = raw.data.length - _
    rw [hdata raw.data, List.length_map, List.length_map, hcount raw.data]

/-- C2: two filename stems that differ only in their stripped decorations —
the trailing bracketed product-code suffix and/or disc-number markers, i.e.
whose residues after `strip_code` and `strip_disc_markers` agree — derive
the same `groupKey`; in particular the two Final Fantasy VII disc stems
collapse to one key, and `"Some_Game_Disc2"` yields the key
`"some game"`. -/
theorem C2_group_key :
    (∀ s1 s2 : String,
        strip_disc_markers (strip_code s1) = strip_disc_markers (strip_code s2) →
        (game_key_from_stem s1).1 = (game_key_from_stem s2).1)
    ∧ (game_key_from_stem "Final Fantasy VII (Disc 1) [SLUS-00892]").1
        = (game_key_from_stem "Final Fantasy VII (Disc 2) [SLUS-00908]").1
    ∧ (game_key_from_stem "Some_Game_Disc2").1 = "some game" := by
  refine ⟨?_, by decide, by decide⟩
  intro s1 s2 h
  simp only [game_key_from_stem, h]

/-- Witness for C2: the two Final Fantasy VII disc stems have equal stripped
residues, hence equal group keys. -/
theorem C2_group_key_witness :
    (game_key_from_stem "Final Fantasy VII (Disc 1) [SLUS-00892]").1
      = (game_key_from_stem "Final Fantasy VII (Disc 2) [SLUS-00908]").1 :=
  C2_group_key.1 _ _ (by decide)

/-- C3: when the input track set is empty (no cue found, no bins found),
the cue pipeline fails with the "no tracks" condition — `locate_or_build_cue`
returns `none`, no cue file is written, and no cue text (no track
descriptors) is produced. -/
theorem C3_empty_track_set :
    locate_or_build_cue [] [] = none
    ∧ locate_or_build_cue_written [] [] = []
    ∧ synthesize_cue_lines [] = [] := by
  refine ⟨rfl, rfl, rfl⟩

/-- C4: for every non-empty sorted track set, `synthesize_cue` emits, per
track `i` (0-based) in input order, a FILE line, a TRACK line numbered
`i + 1` (a contiguous 1-based run) whose mode is `MODE2/2352` for track 1 and
`AUDIO` for tracks 2..N, and an `INDEX 01 00:00:00` line; a single-track
input yields exactly one data descriptor. -/
theorem C4_synthesize_layout (bins : List String) (hb : bins ≠ []) :
    synthesize_cue_lines bins
      = (List.range bins.length).flatMap
          (fun i => [fileLine (bins.getD i ""), trackModeLine (i + 1), indexLine])
    ∧ ∀ b : String, synthesize_cue_lines [b]
        = [fileLine b, "  TRACK 01 MODE2/2352\n", "    INDEX 01 00:00:00\n"] := by
  have loop_eq : ∀ (l : List String) (k : Nat),
      synthLoop (k + 1) l
        = (List.range l.length).flatMap
            (fun i => [fileLine (l.getD i ""), trackModeLine (k + i + 1), indexLine]) := by
    intro l
    induction l with
    | nil => intro k; rfl
    | cons b rest ih =>
      intro k
      have harg :
          (fun i => [fileLine (rest.getD i ""), trackModeLine (k + 1 + i + 1), indexLine])
            = (fun i => [fileLine (rest.getD i ""), trackModeLine (k + (i + 1) + 1), indexLine]) := by
        funext i
        rw [show k + 1 + i + 1 = k + (i + 1) + 1 by omega]
      simp only [synthLoop, List.length_cons, List.range_succ_eq_map,
        List.flatMap_cons, List.flatMap_map, List.getD_cons_zero, List.getD_cons_succ,
        Nat.succ_eq_add_one, List.cons_append, List.nil_append, Nat.add_zero]
      rw [ih (k + 1), harg]
  constructor
  · by_cases h1 : bins.length = 1
    · match bins, h1 with
      | [b], _ =>
        simp only [synthesize_cue_lines, List.length_cons, List.length_nil,
          if_pos rfl, List.headI]
        rfl
    · simp only [synthesize_cue_lines, if_neg h1]
      simpa using loop_eq bins 0
  · intro b
    rfl

/-- Witness for C4 at the spec's three-file example: track 1 = data/a.bin,
track 2 = audio/b.bin, track 3 = audio/c.bin, each with index 00:00:00. -/
theorem C4_synthesize_layout_witness :
    synthesize_cue_lines ["a.bin", "b.bin", "c.bin"]
      = (List.range (["a.bin", "b.bin", "c.bin"] : List String).length).flatMap
          (fun i => [fileLine ((["a.bin", "b.bin", "c.bin"] : List String).getD i ""),
            trackModeLine (i + 1), indexLine]) :=
  (C4_synthesize_layout ["a.bin", "b.bin", "c.bin"] (by decide)).1

/-- C9: a planned rename whose proposed target already exists on the
filesystem and differs from the source is skipped (it never reaches the
work-item list, so the existing target is never overwritten); every rename
that does survive planning either targets a name that did not exist at
planning time or is a self-rename; and a target equal to the source is not
treated as a conflict. -/
theorem C9_collision_policy :
    (∀ (existing : List String) (proposals : List (String × String))
        (src tgt : String), tgt ∈ existing → tgt ≠ src →
        (src, tgt) ∉ plan_renames existing proposals)
    ∧ (∀ (existing : List String) (proposals : List (String × String))
        (pr : String × String), pr ∈ plan_renames existing proposals →
        pr.2 ∈ existing → pr.2 = pr.1)
    ∧ (∀ (existing : List String) (s : String),
        conflict_skip existing s s = false) := by
  refine ⟨?_, ?_, ?_⟩
  · intro existing proposals src tgt hmem hne hin
    rcases List.mem_filter.mp hin with ⟨-, hkeep⟩
    have hfalse : conflict_skip existing src tgt = false := by
      simpa using hkeep
    simp only [conflict_skip, Bool.and_eq_false_iff] at hfalse
    rcases hfalse with h | h
    · have h' : existing.contains tgt = true := List.elem_iff.mpr hmem
      rw [h'] at h
      exact absurd h (by decide)
    · simp only [bne_eq_false_iff_eq] at h
      exact hne h
  · intro existing proposals pr hin hmem
    rcases List.mem_filter.mp hin with ⟨-, hkeep⟩
    have hfalse : conflict_skip existing pr.1 pr.2 = false := by
      simpa using hkeep
    simp only [conflict_skip, Bool.and_eq_false_iff] at hfalse
    rcases hfalse with h | h
    · have h' : existing.contains pr.2 = true := List.elem_iff.mpr hmem
      rw [h'] at h
      exact absurd h (by decide)
    · simpa [bne_eq_false_iff_eq] using h
  · intro existing s
    simp [conflict_skip]

/-- Witness for C9 at a concrete filesystem: renaming `A.iso` onto the
existing `B.iso` is dropped from the plan, and a self-rename is not a
conflict. -/
theorem C9_collision_policy_witness :
    ("A.iso", "B.iso") ∉ plan_renames ["B.iso"] [("A.iso", "B.iso")]
    ∧ conflict_skip ["B.iso"] "C.iso" "C.iso" = false := by
  exact ⟨C9_collision_policy.1 ["B.iso"] [("A.iso", "B.iso")] "A.iso" "B.iso"
      (by decide) (by decide),
    C9_collision_policy.2.2 ["B.iso"] "C.iso"⟩

/-- C10: with the dry-run flag set, the tagging drivers (02, 04) and the
compression driver (03) perform no filesystem mutation at all: no rename, no
cue rewrite, no archive deletion, no archive creation. -/
theorem C10_dry_run_pure :
    (∀ work_items, tag_iso_effects true work_items = [])
    ∧ (∀ items, tag_bincue_effects true items = [])
    ∧ (∀ (name : String) (files : List String) (archive_exists overwrite : Bool),
        build_archive_effects name files archive_exists overwrite true = []) := by
  refine ⟨fun _ => rfl, fun _ => rfl, ?_⟩
  intro name files archive_exists overwrite
  simp only [build_archive_effects, Bool.not_true, Bool.and_false, if_false,
    List.append_nil]
  split
  · rfl
  · simp

/-! ## Supporting lemmas for the byte-content scan -/

theorem cumLen_cons_succ (c : List Char) (rest : List (List Char)) (j : Nat) :
    cumLen (c :: rest) (j + 1) = c.length + cumLen rest j := by
  simp [cumLen, List.take_succ_cons]

theorem chunkListAux_congr (k : Nat) (hk : 1 ≤ k) :
    ∀ (f1 f2 : Nat) (l : List Char), l.length ≤ f1 → l.length ≤ f2 →
    chunkListAux k f1 l = chunkListAux k f2 l := by
  intro f1
  induction f1 with
  | zero =>
    intro f2 l h1 h2
    cases l with
    | nil => cases f2 <;> rfl
    | cons a as => simp at h1
  | succ f1 ih =>
    intro f2 l h1 h2
    cases l with
    | nil => cases f2 <;> rfl
    | cons a as =>
      cases f2 with
      | zero => simp at h2
      | succ f2 =>
        simp only [chunkListAux]
        congr 1
        have hd : ((a :: as).drop k).length = as.length + 1 - k := by simp
        apply ih
        · simp only [List.length_cons] at h1
          omega
        · simp only [List.length_cons] at h2
          omega

theorem chunkList_cons_eq (k : Nat) (hk : 1 ≤ k) (l : List Char) (hl : l ≠ []) :
    chunkList k l = l.take k :: chunkList k (l.drop k) := by
  obtain ⟨a, as, rfl⟩ := List.exists_cons_of_ne_nil hl
  show chunkListAux k (a :: as).length (a :: as) = _
  simp only [List.length_cons, chunkListAux]
  congr 1
  apply chunkListAux_congr k hk
  · simp only [List.length_drop, List.length_cons]
    omega
  · exact le_rfl

theorem chunkListAux_ne_nil (k : Nat) (hk : 1 ≤ k) :
    ∀ (fuel : Nat) (l : List Char), l.length ≤ fuel →
    ∀ c ∈ chunkListAux k fuel l, c ≠ [] := by
  intro fuel
  induction fuel with
  | zero =>
    intro l hl c hc
    cases l with
    | nil => simp [chunkListAux] at hc
    | cons a as => simp at hl
  | succ fuel ih =>
    intro l hl c hc
    cases l with
    | nil => simp [chunkListAux] at hc
    | cons a as =>
      simp only [chunkListAux, List.mem_cons] at hc
      rcases hc with rfl | hc
      · obtain ⟨k', rfl⟩ : ∃ k', k = k' + 1 := ⟨k - 1, by omega⟩
        simp
      · refine ih ((a :: as).drop k) ?_ c hc
        simp only [List.length_drop, List.length_cons]
        simp only [List.length_cons] at hl
        omega

theorem find_go_some (cs : List (List Char)) :
    ∀ (scanned i p n : Nat), (∀ c ∈ cs, c ≠ []) → i < cs.length →
    (∀ j < i, searchCode Char.isUpper (cs.getD j []) = none) →
    scanned + cumLen cs i < MAX_SCAN →
    searchCode Char.isUpper (cs.getD i []) = some (p, n) →
    find_disc_code_go cs scanned
      = some (normalize_code (String.mk (((cs.getD i []).drop p).take n))) := by
  induction cs with
  | nil =>
    intro scanned i p n _ hi
    simp at hi
  | cons c rest ih =>
    intro scanned i p n hne hi hprev hcap hfound
    have hcne : c ≠ [] := hne c (by simp)
    have hcne' : c.isEmpty = false := by simpa using hcne
    cases i with
    | zero =>
      simp only [List.getD_cons_zero] at hfound ⊢
      simp [find_disc_code_go, hcne', hfound]
    | succ i =>
      have h0 : searchCode Char.isUpper c = none := by
        have := hprev 0 (by omega)
        simpa using this
      have hcap' : (scanned + c.length) + cumLen rest i < MAX_SCAN := by
        rw [cumLen_cons_succ] at hcap
        omega
      have hnocap : ¬ MAX_SCAN ≤ scanned + c.length := by
        have : 0 ≤ cumLen rest i := Nat.zero_le _
        omega
      simp only [List.getD_cons_succ] at hfound ⊢
      rw [show find_disc_code_go (c :: rest) scanned
          = find_disc_code_go rest (scanned + c.length) by
        simp [find_disc_code_go, hcne', h0, hnocap]]
      exact ih (scanned + c.length) i p n (fun d hd => hne d (by simp [hd]))
        (by simpa using hi) (fun j hj => by simpa using hprev (j + 1) (by omega))
        hcap' hfound

theorem find_go_none (cs : List (List Char)) :
    ∀ scanned : Nat, scanned < MAX_SCAN →
    (∀ j < cs.length, scanned + cumLen cs j < MAX_SCAN →
        searchCode Char.isUpper (cs.getD j []) = none) →
    find_disc_code_go cs scanned = none := by
  induction cs with
  | nil => intro scanned _ _; rfl
  | cons c rest ih =>
    intro scanned hs h
    by_cases hce : c.isEmpty
    · simp [find_disc_code_go, hce]
    · have hce' : c.isEmpty = false := by simpa using hce
      have h0 : searchCode Char.isUpper c = none := by
        have := h 0 (by simp) (by simpa [cumLen] using hs)
        simpa using this
      by_cases hcap : MAX_SCAN ≤ scanned + c.length
      · simp [find_disc_code_go, hce', h0, hcap]
      · have htail : find_disc_code_go rest (scanned + c.length) = none := by
          refine ih (scanned + c.length) (by omega) ?_
          intro j hj hcapj
          have := h (j + 1) (by simpa using by omega : j + 1 < (c :: rest).length) ?_
          · simpa using this
          · rw [cumLen_cons_succ]
            omega
        simp [find_disc_code_go, hce', h0, hcap, htail]

/-- C7: `find_disc_code` returns the normalized text of the first grammar
match found in chunk-scan order (provided the scan reaches that chunk
within the 64 MiB cap), and returns `none` when no chunk scanned within the
cap contains a match — even if a match exists in chunks past the cap, which
the hypotheses leave unconstrained. -/
theorem C7_extract_from_bytes :
    (∀ (stream : List Char) (i p n : Nat),
        i < (chunkList READ_CHUNK stream).length →
        (∀ j < i, searchCode Char.isUpper ((chunkList READ_CHUNK stream).getD j []) = none) →
        cumLen (chunkList READ_CHUNK stream) i < MAX_SCAN →
        searchCode Char.isUpper ((chunkList READ_CHUNK stream).getD i []) = some (p, n) →
        find_disc_code stream
          = some (normalize_code (String.mk
              ((((chunkList READ_CHUNK stream).getD i []).drop p).take n))))
    ∧ (∀ stream : List Char,
        (∀ j < (chunkList READ_CHUNK stream).length,
            cumLen (chunkList READ_CHUNK stream) j < MAX_SCAN →
            searchCode Char.isUpper ((chunkList READ_CHUNK stream).getD j []) = none) →
        find_disc_code stream = none) := by
  constructor
  · intro stream i p n hi hprev hcap hfound
    exact find_go_some (chunkList READ_CHUNK stream) 0 i p n
      (chunkListAux_ne_nil READ_CHUNK (by norm_num [READ_CHUNK]) stream.length stream le_rfl)
      hi hprev (by simpa using hcap) hfound
  · intro stream h
    exact find_go_none (chunkList READ_CHUNK stream) 0 (by norm_num [MAX_SCAN]) (by simpa using h)

/-- Witness for C7: a stream with a code three bytes in yields the
normalized code, and a stream with no grammar match yields `none`. -/
theorem C7_extract_from_bytes_witness :
    find_disc_code "@@@SLUS-00594@@".data = some "SLUS-00594"
    ∧ find_disc_code "no code here".data = none := by
  constructor
  · have h := C7_extract_from_bytes.1 "@@@SLUS-00594@@".data 0 3 10
      (by decide) (fun j hj => absurd hj (by omega)) (by decide) (by decide)
    exact h.trans (by decide)
  · refine C7_extract_from_bytes.2 "no code here".data ?_
    intro j hj hcap
    have hlen : (chunkList READ_CHUNK "no code here".data).length = 1 := by decide
    have hj0 : j = 0 := by omega
    subst hj0
    decide

/-! ## Supporting lemmas for the chunk-boundary claim -/

theorem matchCodeLen_nil (letter : Char → Bool) : matchCodeLen letter [] = none := by
  simp [matchCodeLen, tryLetters, countWhile]

theorem matchCodeLen_of_nonletter_head (letter : Char → Bool) (c : Char)
    (l : List Char) (hc : letter c = false) :
    matchCodeLen letter (c :: l) = none := by
  have h0 : countWhile letter (c :: l) = 0 := by simp [countWhile, hc]
  simp [matchCodeLen, tryLetters, h0]

theorem searchCode_eq_none_of_forall (letter : Char → Bool) :
    ∀ l : List Char, (∀ j : Nat, matchCodeLen letter (l.drop j) = none) →
    searchCode letter l = none := by
  intro l
  induction l with
  | nil => intro _; rfl
  | cons c rest ih =>
    intro h
    have h0 : matchCodeLen letter (c :: rest) = none := by simpa using h 0
    have ht : searchCode letter rest = none := ih (fun j => by simpa using h (j + 1))
    simp [searchCode, h0, ht]

theorem searchCode_replicate_append (letter : Char → Bool) (b : Char)
    (hb : letter b = false) (t : List Char) (ht : searchCode letter t = none) :
    ∀ n : Nat, searchCode letter (List.replicate n b ++ t) = none := by
  intro n
  induction n with
  | zero => simpa using ht
  | succ n ih =>
    rw [List.replicate_succ, List.cons_append]
    simp [searchCode, matchCodeLen_of_nonletter_head letter b _ hb, ih]

theorem straddle_stream_len : straddle_stream.length = READ_CHUNK + 8 := by
  simp only [straddle_stream, List.length_append, List.length_replicate]
  norm_num [READ_CHUNK]

theorem straddle_chunks :
    chunkList READ_CHUNK straddle_stream
      = [List.replicate (READ_CHUNK - 2) ' ' ++ "SL".data, "US-00594".data] := by
  have hk : 1 ≤ READ_CHUNK := by norm_num [READ_CHUNK]
  have hlen1 : (List.replicate (READ_CHUNK - 2) ' ' : List Char).length = READ_CHUNK - 2 := by
    simp
  have hne : straddle_stream ≠ [] := by
    have := straddle_stream_len
    intro hcon
    rw [hcon] at this
    norm_num [READ_CHUNK] at this
  rw [chunkList_cons_eq READ_CHUNK hk _ hne]
  have htake : straddle_stream.take READ_CHUNK
      = List.replicate (READ_CHUNK - 2) ' ' ++ "SL".data := by
    rw [straddle_stream, List.take_append_eq_append_take, hlen1]
    have h1 : (List.replicate (READ_CHUNK - 2) ' ' : List Char).take READ_CHUNK
        = List.replicate (READ_CHUNK - 2) ' ' := by
      apply List.take_of_length_le
      rw [hlen1]
      omega
    have h2 : READ_CHUNK - (READ_CHUNK - 2) = 2 := by norm_num [READ_CHUNK]
    rw [h1, h2]
    rfl
  have hdrop : straddle_stream.drop READ_CHUNK = "US-00594".data := by
    rw [straddle_stream, List.drop_append_eq_append_drop, hlen1]
    have h1 : (List.replicate (READ_CHUNK - 2) ' ' : List Char).drop READ_CHUNK = [] := by
      apply List.drop_eq_nil_of_le
      rw [hlen1]
      omega
    have h2 : READ_CHUNK - (READ_CHUNK - 2) = 2 := by norm_num [READ_CHUNK]
    rw [h1, h2]
    rfl
  rw [htake, hdrop]
  have hne2 : ("US-00594".data : List Char) ≠ [] := by decide
  rw [chunkList_cons_eq READ_CHUNK hk _ hne2]
  have htake2 : ("US-00594".data : List Char).take READ_CHUNK = "US-00594".data := by
    apply List.take_of_length_le
    norm_num [READ_CHUNK]
  have hdrop2 : ("US-00594".data : List Char).drop READ_CHUNK = [] := by
    apply List.drop_eq_nil_of_le
    norm_num [READ_CHUNK]
  rw [htake2, hdrop2]
  rfl

/-- C8: for the stream whose only grammar-matching code substring starts two
bytes before the 4 MiB chunk boundary (so the match straddles the boundary),
`find_disc_code` returns `none`: chunks are searched independently with no
overlap buffering, so the split match is missed by design. -/
theorem C8_boundary_straddle_missed :
    (matchCodeLen Char.isUpper (straddle_stream.drop (READ_CHUNK - 2)) = some 10
      ∧ READ_CHUNK - 2 < READ_CHUNK ∧ READ_CHUNK < (READ_CHUNK - 2) + 10
      ∧ ∀ q : Nat, q ≠ READ_CHUNK - 2 →
          matchCodeLen Char.isUpper (straddle_stream.drop q) = none)
    ∧ find_disc_code straddle_stream = none := by
  have hlenrep : (List.replicate (READ_CHUNK - 2) ' ' : List Char).length = READ_CHUNK - 2 := by
    simp
  have hdrop_at : straddle_stream.drop (READ_CHUNK - 2) = "SLUS-00594".data := by
    rw [straddle_stream]
    have h := List.drop_left (List.replicate (READ_CHUNK - 2) ' ') "SLUS-00594".data
    rw [hlenrep] at h
    exact h
  refine ⟨⟨?_, by norm_num [READ_CHUNK], by norm_num [READ_CHUNK], ?_⟩, ?_⟩
  · rw [hdrop_at]
    decide
  · intro q hq
    rcases Nat.lt_or_ge q (READ_CHUNK - 2) with hlt | hge
    · have hdropq : straddle_stream.drop q
          = List.replicate (READ_CHUNK - 2 - q) ' ' ++ "SLUS-00594".data := by
        rw [straddle_stream, List.drop_append_of_le_length (by rw [hlenrep]; omega),
          List.drop_replicate]
      obtain ⟨m, hm⟩ : ∃ m, READ_CHUNK - 2 - q = m + 1 := ⟨READ_CHUNK - 2 - q - 1, by omega⟩
      rw [hdropq, hm, List.replicate_succ, List.cons_append]
      exact matchCodeLen_of_nonletter_head _ _ _ (by decide)
    · have hgt : READ_CHUNK - 2 < q := by omega
      obtain ⟨d, rfl⟩ : ∃ d, q = (READ_CHUNK - 2) + d := ⟨q - (READ_CHUNK - 2), by omega⟩
      have hd1 : 1 ≤ d := by omega
      by_cases hd10 : 10 ≤ d
      · have : straddle_stream.drop (READ_CHUNK - 2 + d) = [] := by
          apply List.drop_eq_nil_of_le
          rw [straddle_stream_len]
          norm_num [READ_CHUNK]
          omega
        rw [this]
        exact matchCodeLen_nil _
      · have hdropq : straddle_stream.drop (READ_CHUNK - 2 + d) = "SLUS-00594".data.drop d := by
          rw [straddle_stream]
          have h : (List.replicate (READ_CHUNK - 2) ' ' ++ "SLUS-00594".data).drop
              ((List.replicate (READ_CHUNK - 2) ' ' : List Char).length + d)
              = "SLUS-00594".data.drop d := List.drop_append d
          rw [hlenrep] at h
          exact h
        rw [hdropq]
        interval_cases d <;> decide
  · have hs1 : searchCode Char.isUpper (List.replicate (READ_CHUNK - 2) ' ' ++ "SL".data)
        = none :=
      searchCode_replicate_append Char.isUpper ' ' (by decide) "SL".data (by decide) _
    show find_disc_code_go (chunkList READ_CHUNK straddle_stream) 0 = none
    rw [straddle_chunks]
    refine find_go_none _ 0 (by norm_num [MAX_SCAN]) ?_
    intro j hj _
    simp only [List.length_cons, List.length_nil] at hj
    interval_cases j
    · simpa using hs1
    · decide

/-- Witness for C8's inner hypothesis: at position 0 (inside the leading
padding) there is no grammar match. -/
theorem C8_boundary_straddle_missed_witness :
    matchCodeLen Char.isUpper (straddle_stream.drop 0) = none :=
  C8_boundary_straddle_missed.1.2.2.2 0 (by norm_num [READ_CHUNK])

/-! ## Supporting lemmas for the code-grammar matcher -/

theorem isAlpha_val_bounds (c : Char) (h : c.isAlpha = true) :
    (65 ≤ c.val.toNat ∧ c.val.toNat ≤ 90) ∨ (97 ≤ c.val.toNat ∧ c.val.toNat ≤ 122) := by
  simp only [Char.isAlpha, Char.isUpper, Char.isLower, Bool.or_eq_true, Bool.and_eq_true,
    decide_eq_true_eq] at h
  rcases h with ⟨h1, h2⟩ | ⟨h1, h2⟩
  · exact Or.inl ⟨h1, h2⟩
  · exact Or.inr ⟨h1, h2⟩

theorem isDigit_false_of_val (c : Char) (h : ¬(48 ≤ c.val.toNat ∧ c.val.toNat ≤ 57)) :
    c.isDigit = false := by
  simp only [Char.isDigit, Bool.and_eq_false_iff, decide_eq_false_iff_not]
  by_cases h1 : 48 ≤ c.val.toNat
  · exact Or.inr (by intro hc; exact h ⟨h1, hc⟩)
  · exact Or.inl h1

/-- ASCII letters are disjoint from every other character class the grammar
mentions. -/
theorem isAlpha_props (c : Char) (h : c.isAlpha = true) :
    c.isDigit = false ∧ c ≠ '.' ∧ c ≠ '-' ∧ c ≠ '_' := by
  have hb := isAlpha_val_bounds c h
  refine ⟨isDigit_false_of_val c (by omega), ?_, ?_, ?_⟩
  all_goals intro hc; subst hc; revert hb; decide

theorem isUpper_isAlpha (c : Char) (h : c.isUpper = true) : c.isAlpha = true := by
  simp [Char.isAlpha, h]

/-- A character that blocks every element of the code grammar: not a letter,
not a digit, not a separator, not a dot. -/
def blockingChar (letter : Char → Bool) (b : Char) : Prop :=
  letter b = false ∧ b.isDigit = false ∧ b ≠ '-' ∧ b ≠ '_' ∧ b ≠ '.'

theorem blocking_of_ws (b : Char) (hb : isWSChar b = true) :
    blockingChar Char.isAlpha b := by
  simp only [isWSChar, Bool.or_eq_true, decide_eq_true_eq] at hb
  rcases hb with ((((rfl | rfl) | rfl) | rfl) | rfl) | rfl <;>
    exact ⟨by decide, by decide, by decide, by decide, by decide⟩

theorem countWhile_of_all (p : Char → Bool) (l : List Char)
    (h : ∀ c ∈ l, p c = true) : countWhile p l = l.length := by
  have := countWhile_append_of_all p l [] h
  simpa using this

theorem matchTailDigits_inv (l : List Char) (t : Nat)
    (h : matchTailDigits l = some t) :
    3 ≤ min (countWhile Char.isDigit l) 5
    ∧ (t = min (countWhile Char.isDigit l) 5
       ∨ (t = min (countWhile Char.isDigit l) 5 + 3
          ∧ min (countWhile Char.isDigit l) 5 + 3 ≤ l.length)) := by
  unfold matchTailDigits at h
  set d := min (countWhile Char.isDigit l) 5 with hd
  have hdle : d ≤ countWhile Char.isDigit l := by rw [hd]; exact min_le_left _ _
  have hcwle := countWhile_le_length Char.isDigit l
  by_cases h3 : d < 3
  · simp [h3] at h
  · simp only [h3, if_false] at h
    refine ⟨by omega, ?_⟩
    split at h
    · rename_i a b tail heq
      split at h
      · have hlenq := congrArg List.length heq
        simp only [List.length_drop, List.length_cons] at hlenq
        simp only [Option.some.injEq] at h
        exact Or.inr ⟨by omega, by omega⟩
      · simp only [Option.some.injEq] at h
        exact Or.inl (by omega)
    · simp only [Option.some.injEq] at h
      exact Or.inl (by omega)

theorem matchTailDigits_le (l : List Char) (t : Nat)
    (h : matchTailDigits l = some t) : t ≤ l.length := by
  have hdle : min (countWhile Char.isDigit l) 5 ≤ countWhile Char.isDigit l :=
    min_le_left _ _
  have hcwle := countWhile_le_length Char.isDigit l
  rcases matchTailDigits_inv l t h with ⟨h3, ht | ⟨ht, hb⟩⟩ <;> omega

theorem tryLetters_inv (letter : Char → Bool) (l : List Char) (k n : Nat)
    (h : tryLetters letter l k = some n) :
    k ≤ countWhile letter l
    ∧ ∃ c rest, l.drop k = c :: rest ∧ (c = '-' ∨ c = '_')
      ∧ ∃ t, matchTailDigits rest = some t ∧ n = k + 1 + t := by
  unfold tryLetters at h
  by_cases hk : k ≤ countWhile letter l
  · refine ⟨hk, ?_⟩
    simp only [hk, if_true] at h
    rcases hdrop : l.drop k with _ | ⟨c, rest⟩ <;> rw [hdrop] at h
    · simp at h
    · by_cases hc : c = '-' ∨ c = '_'
      · simp only [hc, if_true, Option.map_eq_some'] at h
        rcases h with ⟨t, ht, hn⟩
        exact ⟨c, rest, rfl, hc, t, ht, hn.symm⟩
      · simp [hc] at h
  · simp [hk] at h

theorem matchCodeLen_inv (letter : Char → Bool) (l : List Char) (n : Nat)
    (h : matchCodeLen letter l = some n) :
    ∃ k, (k = 5 ∨ k = 4) ∧ k ≤ countWhile letter l
    ∧ ∃ c rest, l.drop k = c :: rest ∧ (c = '-' ∨ c = '_')
      ∧ ∃ t, matchTailDigits rest = some t ∧ n = k + 1 + t := by
  unfold matchCodeLen at h
  rcases h5 : tryLetters letter l 5 with _ | m
  · rw [h5] at h
    simp only at h
    exact ⟨4, Or.inr rfl, (tryLetters_inv letter l 4 n h).1,
      (tryLetters_inv letter l 4 n h).2⟩
  · rw [h5] at h
    simp only at h
    cases h
    exact ⟨5, Or.inl rfl, (tryLetters_inv letter l 5 n h5).1,
      (tryLetters_inv letter l 5 n h5).2⟩

theorem matchCodeLen_pos (letter : Char → Bool) (l : List Char) (n : Nat)
    (h : matchCodeLen letter l = some n) : 1 ≤ n := by
  rcases matchCodeLen_inv letter l n h with ⟨k, _, _, c, rest, _, _, t, _, hn⟩
  omega

theorem matchCodeLen_le_length (letter : Char → Bool) (l : List Char) (n : Nat)
    (h : matchCodeLen letter l = some n) : n ≤ l.length := by
  rcases matchCodeLen_inv letter l n h with ⟨k, _, hk, c, rest, hdrop, _, t, ht, hn⟩
  have h1 : t ≤ rest.length := matchTailDigits_le rest t ht
  have h2 : l.length - k = rest.length + 1 := by
    have := congrArg List.length hdrop
    simpa using this
  have h3 : k ≤ l.length := le_trans hk (countWhile_le_length letter l)
  omega

theorem matchCodeLen_head_letter (letter : Char → Bool) (l : List Char) (n : Nat)
    (h : matchCodeLen letter l = some n) :
    ∃ c rest, l = c :: rest ∧ letter c = true := by
  rcases matchCodeLen_inv letter l n h with ⟨k, hk45, hk, _⟩
  exact head_of_countWhile_pos letter l (by omega)

theorem matchTailDigits_append_blocked (u v : List Char) (b : Char)
    (hb1 : b.isDigit = false) (hb2 : b ≠ '.') :
    matchTailDigits (u ++ b :: v) = matchTailDigits u := by
  unfold matchTailDigits
  rw [countWhile_append_of_not Char.isDigit u v b hb1]
  set d := min (countWhile Char.isDigit u) 5 with hd
  have hdlen : d ≤ u.length :=
    le_trans (by rw [hd]; exact min_le_left _ _) (countWhile_le_length _ _)
  by_cases h3 : d < 3
  · simp [h3]
  · simp only [h3, if_false]
    rw [List.drop_append_of_le_length hdlen]
    rcases hdrop : u.drop d with _ | ⟨c, rest⟩
    · simp only [List.nil_append]
      split
      · rename_i a bb tail heq
        injection heq with h1 _
        exact absurd h1 hb2
      · rfl
    · simp only [List.cons_append]
      by_cases hc : c = '.'
      · subst hc
        rcases rest with _ | ⟨a, rest2⟩
        · rcases v with _ | ⟨v0, v1⟩
          · rfl
          · simp [hb1]
        · rcases rest2 with _ | ⟨bb, rest3⟩
          · simp [hb1]
          · rfl
      · split
        · rename_i a bb tail heq
          injection heq with h1 _
          exact absurd h1 hc
        · split
          · rename_i a bb tail heq
            injection heq with h1 _
            exact absurd h1 hc
          · rfl

theorem tryLetters_append_blocked (letter : Char → Bool) (u v : List Char)
    (b : Char) (hb : blockingChar letter b) (k : Nat) :
    tryLetters letter (u ++ b :: v) k = tryLetters letter u k := by
  obtain ⟨hbl, hbd, hbm, hbu, hbp⟩ := hb
  unfold tryLetters
  rw [countWhile_append_of_not letter u v b hbl]
  by_cases hk : k ≤ countWhile letter u
  · simp only [hk, if_true]
    have hkl : k ≤ u.length := le_trans hk (countWhile_le_length _ _)
    rw [List.drop_append_of_le_length hkl]
    rcases hdrop : u.drop k with _ | ⟨c, rest⟩
    · simp only [List.nil_append]
      have hnb : ¬(b = '-' ∨ b = '_') := by tauto
      simp [hnb]
    · simp only [List.cons_append]
      by_cases hc : c = '-' ∨ c = '_'
      · simp only [hc, if_true]
        rw [matchTailDigits_append_blocked rest v b hbd hbp]
      · simp [hc]
  · simp [hk]

theorem matchCodeLen_append_blocked (letter : Char → Bool) (u v : List Char)
    (b : Char) (hb : blockingChar letter b) :
    matchCodeLen letter (u ++ b :: v) = matchCodeLen letter u := by
  unfold matchCodeLen
  rw [tryLetters_append_blocked letter u v b hb 5,
    tryLetters_append_blocked letter u v b hb 4]

theorem searchCode_some_inv (letter : Char → Bool) : ∀ (l : List Char) (p n : Nat),
    searchCode letter l = some (p, n) →
    matchCodeLen letter (l.drop p) = some n
      ∧ ∀ j < p, matchCodeLen letter (l.drop j) = none := by
  intro l
  induction l with
  | nil =>
    intro p n h
    simp [searchCode] at h
  | cons c rest ih =>
    intro p n h
    rcases hm : matchCodeLen letter (c :: rest) with _ | m
    · simp only [searchCode, hm] at h
      rcases Option.map_eq_some'.mp h with ⟨pr, hpr, heq⟩
      obtain ⟨hp, hn⟩ : pr.1 + 1 = p ∧ pr.2 = n := by
        have h1 := congrArg Prod.fst heq
        have h2 := congrArg Prod.snd heq
        exact ⟨h1, h2⟩
      subst hp
      subst hn
      rcases ih pr.1 pr.2 (by simpa using hpr) with ⟨hfound, hnone⟩
      refine ⟨by simpa using hfound, ?_⟩
      intro j hj
      cases j with
      | zero => simpa using hm
      | succ j => simpa using hnone j (by omega)
    · simp only [searchCode, hm, Option.some.injEq, Prod.mk.injEq] at h
      obtain ⟨hp, hn⟩ := h
      subst hp
      subst hn
      refine ⟨by simpa using hm, ?_⟩
      intro j hj
      omega

theorem searchCode_none_forall (letter : Char → Bool) : ∀ l : List Char,
    searchCode letter l = none → ∀ j : Nat, matchCodeLen letter (l.drop j) = none := by
  intro l
  induction l with
  | nil =>
    intro _ j
    rw [List.drop_nil]
    exact matchCodeLen_nil letter
  | cons c rest ih =>
    intro h j
    have hm : matchCodeLen letter (c :: rest) = none := by
      rcases hmm : matchCodeLen letter (c :: rest) with _ | m
      · rfl
      · simp [searchCode, hmm] at h
    have ht : searchCode letter rest = none := by
      simp only [searchCode, hm] at h
      simpa using h
    cases j with
    | zero => simpa using hm
    | succ j => simpa using ih ht j

theorem searchCode_append_blocked (letter : Char → Bool) (b : Char)
    (hb : blockingChar letter b) : ∀ (u v : List Char),
    searchCode letter u = none →
    searchCode letter (u ++ b :: v)
      = (searchCode letter v).map (fun pr => (pr.1 + u.length + 1, pr.2)) := by
  intro u
  induction u with
  | nil =>
    intro v _
    rw [List.nil_append]
    have hm : matchCodeLen letter (b :: v) = none :=
      matchCodeLen_of_nonletter_head letter b v hb.1
    simp only [searchCode, hm, List.length_nil]
  | cons c u' ih =>
    intro v hu
    have hm : matchCodeLen letter (c :: u') = none := by
      rcases hmm : matchCodeLen letter (c :: u') with _ | m
      · rfl
      · simp [searchCode, hmm] at hu
    have hu' : searchCode letter u' = none := by
      simp only [searchCode, hm] at hu
      simpa using hu
    have hmext : matchCodeLen letter (c :: (u' ++ b :: v)) = none := by
      rw [← List.cons_append]
      rw [matchCodeLen_append_blocked letter (c :: u') v b hb]
      exact hm
    rw [List.cons_append]
    simp only [searchCode, hmext]
    rw [ih v hu']
    rcases hv : searchCode letter v with _ | pr
    · rfl
    · rfl

/-! ## Supporting lemmas about canonical codes -/

theorem take_countWhile_all (p : Char → Bool) : ∀ l : List Char,
    ∀ c ∈ l.take (countWhile p l), p c = true := by
  intro l
  induction l with
  | nil => simp
  | cons c rest ih =>
    by_cases hc : p c = true
    · simp only [countWhile, hc, if_true, List.take_succ_cons]
      intro d hd
      rcases List.mem_cons.mp hd with rfl | hd'
      · exact hc
      · exact ih d hd'
    · have hc' : p c = false := by simpa using hc
      simp [countWhile, hc']

theorem isCanonicalCode_inv (code : String) (h : isCanonicalCode code = true) :
    ∃ L D : List Char, code.data = L ++ '-' :: D
      ∧ (L.length = 4 ∨ L.length = 5) ∧ (∀ c ∈ L, c.isUpper = true)
      ∧ 3 ≤ D.length ∧ D.length ≤ 5 ∧ (∀ c ∈ D, c.isDigit = true) := by
  unfold isCanonicalCode at h
  set r := countWhile Char.isUpper code.data with hr
  rcases hdrop : code.data.drop r with _ | ⟨c, ds⟩ <;> rw [hdrop] at h
  · simp at h
  · by_cases hc : c = '-'
    · subst hc
      simp only [Bool.and_eq_true, Bool.or_eq_true, decide_eq_true_eq,
        List.all_eq_true] at h
      obtain ⟨hr45, ⟨h3, h5⟩, hdig⟩ := h
      refine ⟨code.data.take r, ds, ?_, ?_, ?_, h3, h5, ?_⟩
      · rw [← hdrop, List.take_append_drop]
      · have hrlen : r ≤ code.data.length := by
          rw [hr]
          exact countWhile_le_length _ _
        have hlt : r < code.data.length := by
          by_contra hcon
          have hnil : code.data.drop r = [] := List.drop_eq_nil_of_le (by omega)
          rw [hnil] at hdrop
          simp at hdrop
        rcases hr45 with h4 | h5'
        · left
          rw [List.length_take]
          omega
        · right
          rw [List.length_take]
          omega
      · intro d hd
        exact take_countWhile_all Char.isUpper code.data d (by rwa [hr] at hd)
      · exact hdig
    · simp [hc] at h

theorem matchTailDigits_ge (D v : List Char) (hD : ∀ c ∈ D, c.isDigit = true)
    (h3 : 3 ≤ D.length) (h5 : D.length ≤ 5) :
    ∃ t, matchTailDigits (D ++ v) = some t ∧ D.length ≤ t := by
  unfold matchTailDigits
  have hcw : D.length ≤ countWhile Char.isDigit (D ++ v) := by
    rw [countWhile_append_of_all Char.isDigit D v hD]
    omega
  set d := min (countWhile Char.isDigit (D ++ v)) 5 with hd
  have hdge : D.length ≤ d := by
    rw [hd]
    exact le_min hcw h5
  have h3' : ¬ d < 3 := by omega
  simp only [h3', if_false]
  split
  · split
    · exact ⟨d + 3, rfl, by omega⟩
    · exact ⟨d, rfl, by omega⟩
  · exact ⟨d, rfl, by omega⟩

theorem matchTailDigits_exact (D v : List Char) (hD : ∀ c ∈ D, c.isDigit = true)
    (h3 : 3 ≤ D.length) (h5 : D.length ≤ 5)
    (hv : v = [] ∨ ∃ b v', v = b :: v' ∧ b.isDigit = false ∧ b ≠ '.') :
    matchTailDigits (D ++ v) = some D.length := by
  unfold matchTailDigits
  have hcw : countWhile Char.isDigit (D ++ v) = D.length := by
    rcases hv with rfl | ⟨b, v', rfl, hbd, _⟩
    · rw [List.append_nil, countWhile_of_all Char.isDigit D hD]
    · rw [countWhile_append_of_not Char.isDigit D v' b hbd,
        countWhile_of_all Char.isDigit D hD]
  rw [hcw]
  have hdmin : min D.length 5 = D.length := by omega
  rw [hdmin]
  have h3' : ¬ D.length < 3 := by omega
  simp only [h3', if_false]
  have hdropD : (D ++ v).drop D.length = v := List.drop_left D v
  rw [hdropD]
  rcases hv with rfl | ⟨b, v', rfl, _, hbp⟩
  · rfl
  · split
    · rename_i a bb tail heq
      injection heq with h1 _
      exact absurd h1 hbp
    · rfl

theorem matchCodeLen_canonical_core (code : String) (hcode : isCanonicalCode code = true)
    (v : List Char) :
    ∃ L D : List Char, code.data = L ++ '-' :: D ∧ (∀ c ∈ D, c.isDigit = true)
      ∧ 3 ≤ D.length ∧ D.length ≤ 5
      ∧ ∀ t : Nat, matchTailDigits (D ++ v) = some t →
          matchCodeLen Char.isAlpha (code.data ++ v) = some (L.length + 1 + t) := by
  rcases isCanonicalCode_inv code hcode with ⟨L, D, hdata, hL45, hLup, h3, h5, hD⟩
  have hLalpha : ∀ c ∈ L, Char.isAlpha c = true := fun c hc => isUpper_isAlpha c (hLup c hc)
  have hassoc : code.data ++ v = L ++ '-' :: (D ++ v) := by
    rw [hdata, List.append_assoc]
    rfl
  have hrun : countWhile Char.isAlpha (code.data ++ v) = L.length := by
    rw [hassoc, countWhile_append_of_not Char.isAlpha L (D ++ v) '-' (by decide),
      countWhile_of_all Char.isAlpha L hLalpha]
  have hdropL : (code.data ++ v).drop L.length = '-' :: (D ++ v) := by
    rw [hassoc]
    exact List.drop_left L _
  refine ⟨L, D, hdata, hD, h3, h5, ?_⟩
  intro t ht
  rcases hL45 with h4 | h5'
  · have h5none : tryLetters Char.isAlpha (code.data ++ v) 5 = none := by
      unfold tryLetters
      rw [hrun, h4, if_neg (by omega)]
    have h4some : tryLetters Char.isAlpha (code.data ++ v) 4 = some (4 + 1 + t) := by
      unfold tryLetters
      rw [hrun, h4, if_pos (le_refl 4)]
      have hdropL4 : (code.data ++ v).drop 4 = '-' :: (D ++ v) := by
        rw [← h4]
        exact hdropL
      rw [hdropL4]
      show (if ('-' : Char) = '-' ∨ ('-' : Char) = '_' then
          (matchTailDigits (D ++ v)).map (fun s => 4 + 1 + s) else none) = some (4 + 1 + t)
      rw [if_pos (Or.inl rfl), ht]
      rfl
    have hfin : matchCodeLen Char.isAlpha (code.data ++ v) = some (4 + 1 + t) := by
      unfold matchCodeLen
      rw [h5none]
      exact h4some
    rw [hfin, h4]
  · have h5some : tryLetters Char.isAlpha (code.data ++ v) 5 = some (5 + 1 + t) := by
      unfold tryLetters
      rw [hrun, h5', if_pos (le_refl 5)]
      have hdropL5 : (code.data ++ v).drop 5 = '-' :: (D ++ v) := by
        rw [← h5']
        exact hdropL
      rw [hdropL5]
      show (if ('-' : Char) = '-' ∨ ('-' : Char) = '_' then
          (matchTailDigits (D ++ v)).map (fun s => 5 + 1 + s) else none) = some (5 + 1 + t)
      rw [if_pos (Or.inl rfl), ht]
      rfl
    have hfin : matchCodeLen Char.isAlpha (code.data ++ v) = some (5 + 1 + t) := by
      unfold matchCodeLen
      rw [h5some]
    rw [hfin, h5']

theorem matchCodeLen_canonical_ge (code : String) (hcode : isCanonicalCode code = true)
    (v : List Char) :
    ∃ m, matchCodeLen Char.isAlpha (code.data ++ v) = some m ∧ code.data.length ≤ m := by
  rcases matchCodeLen_canonical_core code hcode v with ⟨L, D, hdata, hD, h3, h5, hmain⟩
  rcases matchTailDigits_ge D v hD h3 h5 with ⟨t, ht, htge⟩
  refine ⟨L.length + 1 + t, hmain t ht, ?_⟩
  have : code.data.length = L.length + 1 + D.length := by
    rw [hdata]
    simp
    omega
  omega

theorem matchCodeLen_canonical_exact (code : String) (hcode : isCanonicalCode code = true)
    (v : List Char)
    (hv : v = [] ∨ ∃ b v', v = b :: v' ∧ b.isDigit = false ∧ b ≠ '.') :
    matchCodeLen Char.isAlpha (code.data ++ v) = some code.data.length := by
  rcases matchCodeLen_canonical_core code hcode v with ⟨L, D, hdata, hD, h3, h5, hmain⟩
  have ht := matchTailDigits_exact D v hD h3 h5 hv
  have hlen : code.data.length = L.length + 1 + D.length := by
    rw [hdata]
    simp
    omega
  rw [hmain D.length ht, hlen]

/-! ## Supporting lemmas for the token count -/

theorem ccAux_congr (letter : Char → Bool) :
    ∀ (f1 f2 : Nat) (l : List Char), l.length ≤ f1 → l.length ≤ f2 →
    countCodesAux letter f1 l = countCodesAux letter f2 l := by
  intro f1
  induction f1 with
  | zero =>
    intro f2 l h1 h2
    cases l with
    | nil => cases f2 <;> rfl
    | cons c rest => simp at h1
  | succ f1 ih =>
    intro f2 l h1 h2
    cases l with
    | nil => cases f2 <;> rfl
    | cons c rest =>
      cases f2 with
      | zero => simp at h2
      | succ f2 =>
        cases hm : matchCodeLen letter (c :: rest) with
        | none =>
          simp only [countCodesAux, hm]
          exact ih f2 rest (by simp only [List.length_cons] at h1; omega)
            (by simp only [List.length_cons] at h2; omega)
        | some n =>
          simp only [countCodesAux, hm]
          have hpos := matchCodeLen_pos letter (c :: rest) n hm
          have hd1 : ((c :: rest).drop n).length ≤ f1 := by
            simp only [List.length_drop, List.length_cons]
            simp only [List.length_cons] at h1
            omega
          have hd2 : ((c :: rest).drop n).length ≤ f2 := by
            simp only [List.length_drop, List.length_cons]
            simp only [List.length_cons] at h2
            omega
          rw [ih f2 ((c :: rest).drop n) hd1 hd2]

theorem ccList_cons_none (letter : Char → Bool) (c : Char) (rest : List Char)
    (h : matchCodeLen letter (c :: rest) = none) :
    ccList letter (c :: rest) = ccList letter rest := by
  unfold ccList
  simp only [List.length_cons, countCodesAux, h]

theorem ccList_cons_some (letter : Char → Bool) (c : Char) (rest : List Char) (n : Nat)
    (h : matchCodeLen letter (c :: rest) = some n) :
    ccList letter (c :: rest) = 1 + ccList letter ((c :: rest).drop n) := by
  unfold ccList
  simp only [List.length_cons, countCodesAux, h]
  have hpos := matchCodeLen_pos letter (c :: rest) n h
  refine congrArg (1 + ·) ?_
  apply ccAux_congr
  · simp only [List.length_drop, List.length_cons]
    omega
  · exact le_rfl

theorem ccList_skip (letter : Char → Bool) :
    ∀ (q : Nat) (l : List Char), (∀ i < q, matchCodeLen letter (l.drop i) = none) →
    ccList letter l = ccList letter (l.drop q) := by
  intro q
  induction q with
  | zero =>
    intro l _
    simp
  | succ q ih =>
    intro l h
    cases l with
    | nil => simp
    | cons c rest =>
      have h0 : matchCodeLen letter (c :: rest) = none := by simpa using h 0 (by omega)
      rw [ccList_cons_none letter c rest h0, List.drop_succ_cons]
      exact ih rest (fun i hi => by simpa using h (i + 1) (by omega))

theorem ccList_zero_forall (letter : Char → Bool) :
    ∀ l : List Char, ccList letter l = 0 →
    ∀ j : Nat, matchCodeLen letter (l.drop j) = none := by
  intro l
  induction l with
  | nil =>
    intro _ j
    rw [List.drop_nil]
    exact matchCodeLen_nil letter
  | cons c rest ih =>
    intro h j
    cases hm : matchCodeLen letter (c :: rest) with
    | some n =>
      rw [ccList_cons_some letter c rest n hm] at h
      omega
    | none =>
      rw [ccList_cons_none letter c rest hm] at h
      cases j with
      | zero => simpa using hm
      | succ j => simpa using ih h j

theorem ccList_eq_zero_of_forall (letter : Char → Bool) :
    ∀ l : List Char, (∀ j : Nat, matchCodeLen letter (l.drop j) = none) →
    ccList letter l = 0 := by
  intro l
  induction l with
  | nil => intro _; rfl
  | cons c rest ih =>
    intro h
    have h0 : matchCodeLen letter (c :: rest) = none := by simpa using h 0
    rw [ccList_cons_none letter c rest h0]
    exact ih (fun j => by simpa using h (j + 1))

/-! ## Matching is insensitive to the continuation past a non-letter stop -/

theorem matchTailDigits_congr_tail (w : List Char) (x0 y0 : Char) (xs ys : List Char)
    (hx0d : x0.isDigit = false) (hx0p : x0 ≠ '.')
    (hy0d : y0.isDigit = false) (hy0p : y0 ≠ '.') :
    matchTailDigits (w ++ x0 :: xs) = matchTailDigits (w ++ y0 :: ys) := by
  rw [matchTailDigits_append_blocked w xs x0 hx0d hx0p,
    matchTailDigits_append_blocked w ys y0 hy0d hy0p]

theorem tryLetters_congr_tail (letter : Char → Bool) (w : List Char)
    (hw : countWhile letter w < w.length) (x0 y0 : Char) (xs ys : List Char)
    (hx0d : x0.isDigit = false) (hx0p : x0 ≠ '.')
    (hy0d : y0.isDigit = false) (hy0p : y0 ≠ '.') (k : Nat) :
    tryLetters letter (w ++ x0 :: xs) k = tryLetters letter (w ++ y0 :: ys) k := by
  unfold tryLetters
  rw [countWhile_append_of_lt letter w (x0 :: xs) hw,
    countWhile_append_of_lt letter w (y0 :: ys) hw]
  by_cases hk : k ≤ countWhile letter w
  · simp only [hk, if_true]
    have hklt : k < w.length := by omega
    rw [List.drop_append_of_le_length (by omega), List.drop_append_of_le_length (by omega),
      List.drop_eq_getElem_cons hklt]
    simp only [List.cons_append]
    show (if w[k] = '-' ∨ w[k] = '_' then
        (matchTailDigits (w.drop (k + 1) ++ x0 :: xs)).map (fun t => k + 1 + t) else none)
      = (if w[k] = '-' ∨ w[k] = '_' then
        (matchTailDigits (w.drop (k + 1) ++ y0 :: ys)).map (fun t => k + 1 + t) else none)
    by_cases hsep : w[k] = '-' ∨ w[k] = '_'
    · rw [if_pos hsep, if_pos hsep,
        matchTailDigits_congr_tail (w.drop (k + 1)) x0 y0 xs ys hx0d hx0p hy0d hy0p]
    · rw [if_neg hsep, if_neg hsep]
  · simp [hk]

theorem matchCodeLen_congr_tail (letter : Char → Bool) (w : List Char)
    (hw : countWhile letter w < w.length) (x0 y0 : Char) (xs ys : List Char)
    (hx0d : x0.isDigit = false) (hx0p : x0 ≠ '.')
    (hy0d : y0.isDigit = false) (hy0p : y0 ≠ '.') :
    matchCodeLen letter (w ++ x0 :: xs) = matchCodeLen letter (w ++ y0 :: ys) := by
  unfold matchCodeLen
  rw [tryLetters_congr_tail letter w hw x0 y0 xs ys hx0d hx0p hy0d hy0p 5,
    tryLetters_congr_tail letter w hw x0 y0 xs ys hx0d hx0p hy0d hy0p 4]

theorem ccList_match_some (letter : Char → Bool) (l : List Char) (n : Nat)
    (h : matchCodeLen letter l = some n) :
    ccList letter l = 1 + ccList letter (l.drop n) := by
  rcases matchCodeLen_head_letter letter l n h with ⟨c, rest, rfl, _⟩
  exact ccList_cons_some letter c rest n h

theorem pyRStripWS_decomp (l : List Char) :
    ∃ w, l = pyRStripWS l ++ w ∧ ∀ c ∈ w, isWSChar c = true := by
  refine ⟨(l.reverse.takeWhile isWSChar).reverse, ?_, ?_⟩
  · have h1 : l.reverse.takeWhile isWSChar ++ l.reverse.dropWhile isWSChar = l.reverse :=
      List.takeWhile_append_dropWhile isWSChar l.reverse
    have h2 := congrArg List.reverse h1
    rw [List.reverse_append, List.reverse_reverse] at h2
    exact h2.symm
  · intro c hc
    rw [List.mem_reverse] at hc
    exact List.mem_takeWhile_imp hc

/-- In the append branch the result contains exactly one grammar token: the
appended bracketed canonical code. -/
theorem ccList_append_bracket (stem code : String)
    (hs : searchCode Char.isAlpha stem.data = none)
    (hcode : isCanonicalCode code = true) :
    ccList Char.isAlpha
      (pyRStripWS stem.data ++ ' ' :: '[' :: (code.data ++ [']'])) = 1 := by
  have hpointS : ∀ j, matchCodeLen Char.isAlpha (stem.data.drop j) = none :=
    searchCode_none_forall Char.isAlpha stem.data hs
  rcases pyRStripWS_decomp stem.data with ⟨w, hdecomp, hws⟩
  have hpointU : ∀ j, matchCodeLen Char.isAlpha ((pyRStripWS stem.data).drop j) = none := by
    intro j
    by_cases hj : j ≤ (pyRStripWS stem.data).length
    · have hstem : stem.data.drop j = (pyRStripWS stem.data).drop j ++ w := by
        conv_lhs => rw [hdecomp]
        exact List.drop_append_of_le_length hj
      rcases w with _ | ⟨b, w'⟩
      · have := hpointS j
        rw [hstem, List.append_nil] at this
        exact this
      · have hblock : blockingChar Char.isAlpha b := blocking_of_ws b (hws b (by simp))
        have := hpointS j
        rw [hstem, matchCodeLen_append_blocked Char.isAlpha _ w' b hblock] at this
        exact this
    · rw [List.drop_eq_nil_of_le (by omega)]
      exact matchCodeLen_nil Char.isAlpha
  have hbl_space : blockingChar Char.isAlpha ' ' := blocking_of_ws ' ' (by decide)
  have hscan : ∀ i < (pyRStripWS stem.data).length + 2,
      matchCodeLen Char.isAlpha
        ((pyRStripWS stem.data ++ ' ' :: '[' :: (code.data ++ [']'])).drop i) = none := by
    intro i hi
    by_cases hiu : i < (pyRStripWS stem.data).length
    · rw [List.drop_append_of_le_length (by omega)]
      rw [matchCodeLen_append_blocked Char.isAlpha _ _ ' ' hbl_space]
      exact hpointU i
    · by_cases hieq : i = (pyRStripWS stem.data).length
      · subst hieq
        rw [List.drop_left]
        exact matchCodeLen_of_nonletter_head Char.isAlpha ' ' _ (by decide)
      · have hieq1 : i = (pyRStripWS stem.data).length + 1 := by omega
        subst hieq1
        rw [List.drop_append]
        exact matchCodeLen_of_nonletter_head Char.isAlpha '[' _ (by decide)
  have hskip := ccList_skip Char.isAlpha ((pyRStripWS stem.data).length + 2)
    (pyRStripWS stem.data ++ ' ' :: '[' :: (code.data ++ [']'])) hscan
  rw [hskip]
  have hdrop2 : (pyRStripWS stem.data ++ ' ' :: '[' :: (code.data ++ [']'])).drop
      ((pyRStripWS stem.data).length + 2) = code.data ++ [']'] := by
    rw [List.drop_append]
    rfl
  rw [hdrop2]
  have hmatch : matchCodeLen Char.isAlpha (code.data ++ [']']) = some code.data.length :=
    matchCodeLen_canonical_exact code hcode [']']
      (Or.inr ⟨']', [], rfl, by decide, by decide⟩)
  rw [ccList_match_some Char.isAlpha (code.data ++ [']']) code.data.length hmatch]
  rw [List.drop_left]
  rw [ccList_cons_none Char.isAlpha ']' []
    (matchCodeLen_of_nonletter_head Char.isAlpha ']' [] (by decide))]
  rfl

/-- In the replace branch, substituting the canonical code for the unique
grammar token of `S` leaves exactly one grammar token in the result. -/
theorem ccList_replace (S : List Char) (code : String) (p n : Nat)
    (hsearch : searchCode Char.isAlpha S = some (p, n))
    (hcount : ccList Char.isAlpha S = 1)
    (hcode : isCanonicalCode code = true) :
    ccList Char.isAlpha (S.take p ++ code.data ++ S.drop (p + n)) = 1 := by
  obtain ⟨hfound, hprefix⟩ := searchCode_some_inv Char.isAlpha S p n hsearch
  have hnle : n ≤ (S.drop p).length := matchCodeLen_le_length _ _ _ hfound
  have hple : p ≤ S.length := by
    by_contra hcon
    rw [List.drop_eq_nil_of_le (by omega), matchCodeLen_nil] at hfound
    cases hfound
  have hprelen : (S.take p).length = p := by
    rw [List.length_take]
    omega
  -- the suffix after the token contains no matches
  have hsufzero : ccList Char.isAlpha (S.drop (p + n)) = 0 := by
    have hccp : ccList Char.isAlpha S = ccList Char.isAlpha (S.drop p) :=
      ccList_skip Char.isAlpha p S hprefix
    have hdec := ccList_match_some Char.isAlpha (S.drop p) n hfound
    have h1 : (S.drop p).drop n = S.drop (p + n) := by
      rw [List.drop_drop]
    rw [h1] at hdec
    omega
  have hsufnone : ∀ j, matchCodeLen Char.isAlpha ((S.drop (p + n)).drop j) = none :=
    ccList_zero_forall Char.isAlpha _ hsufzero
  -- head of the replaced token is a letter
  rcases matchCodeLen_head_letter Char.isAlpha (S.drop p) n hfound with ⟨t0, trest, hcons, ht0⟩
  -- the code matches at offset p of the result
  have hRdropPre : (S.take p ++ code.data ++ S.drop (p + n)).drop p
      = code.data ++ S.drop (p + n) := by
    have h := List.drop_left (S.take p) (code.data ++ S.drop (p + n))
    rw [hprelen] at h
    rw [List.append_assoc]
    exact h
  rcases matchCodeLen_canonical_ge code hcode (S.drop (p + n)) with ⟨m0, hm0, hm0ge⟩
  rcases hsR : searchCode Char.isAlpha (S.take p ++ code.data ++ S.drop (p + n))
      with _ | pr
  · exfalso
    have hhh := searchCode_none_forall Char.isAlpha _ hsR p
    rw [hRdropPre, hm0] at hhh
    cases hhh
  · obtain ⟨hfoundR, hprefixR⟩ := searchCode_some_inv Char.isAlpha _ pr.1 pr.2 hsR
    have hp'le : pr.1 ≤ p := by
      by_contra hcon
      have hhh := hprefixR p (by omega)
      rw [hRdropPre, hm0] at hhh
      cases hhh
    have hbound : p + code.data.length ≤ pr.1 + pr.2 := by
      rcases Nat.eq_or_lt_of_le hp'le with heq | hlt
      · rw [heq, hRdropPre, hm0] at hfoundR
        have : m0 = pr.2 := Option.some.inj hfoundR
        omega
      · -- pr.1 < p : a match starting inside the prefix
        have hwlen : ((S.take p).drop pr.1).length = p - pr.1 := by
          rw [List.length_drop, hprelen]
        have hRdrop : (S.take p ++ code.data ++ S.drop (p + n)).drop pr.1
            = (S.take p).drop pr.1 ++ (code.data ++ S.drop (p + n)) := by
          rw [List.append_assoc]
          exact List.drop_append_of_le_length (by omega)
        have hSdrop : S.drop pr.1 = (S.take p).drop pr.1 ++ S.drop p := by
          conv_lhs => rw [← List.take_append_drop p S]
          exact List.drop_append_of_le_length (by omega)
        have hnoneOld : matchCodeLen Char.isAlpha (S.drop pr.1) = none :=
          hprefix pr.1 (by omega)
        rcases isCanonicalCode_inv code hcode with ⟨L, D, hdata, hL45, hLup, h3, h5, hD⟩
        have hLalpha : ∀ c ∈ L, Char.isAlpha c = true :=
          fun c hc => isUpper_isAlpha c (hLup c hc)
        rcases Nat.lt_or_ge (countWhile Char.isAlpha ((S.take p).drop pr.1))
            ((S.take p).drop pr.1).length with hwlt | hwge
        · -- run stops inside the prefix: old and new agree, contradiction
          exfalso
          rcases L with _ | ⟨c0, L'⟩
          · rw [List.length_nil] at hL45
            omega
          · have hc0alpha : Char.isAlpha c0 = true :=
              isUpper_isAlpha c0 (hLup c0 (by simp))
            have hpc := isAlpha_props c0 hc0alpha
            have hpt := isAlpha_props t0 ht0
            have hx : (S.take p ++ code.data ++ S.drop (p + n)).drop pr.1
                = (S.take p).drop pr.1 ++ c0 :: (L' ++ '-' :: D ++ S.drop (p + n)) := by
              rw [hRdrop, hdata]
              simp [List.append_assoc]
            have hy : S.drop pr.1 = (S.take p).drop pr.1 ++ t0 :: trest := by
              rw [hSdrop, hcons]
            have hcongr := matchCodeLen_congr_tail Char.isAlpha ((S.take p).drop pr.1) hwlt
              c0 t0 (L' ++ '-' :: D ++ S.drop (p + n)) trest
              hpc.1 hpc.2.1 hpt.1 hpt.2.1
            rw [← hx, ← hy] at hcongr
            rw [hcongr, hnoneOld] at hfoundR
            cases hfoundR
        · -- the prefix remainder is all letters
          have hwall : ∀ c ∈ (S.take p).drop pr.1, Char.isAlpha c = true :=
            all_of_countWhile_eq_length Char.isAlpha _ (by
              have := countWhile_le_length Char.isAlpha ((S.take p).drop pr.1)
              omega)
          have hshape : (S.take p ++ code.data ++ S.drop (p + n)).drop pr.1
              = ((S.take p).drop pr.1 ++ L) ++ '-' :: (D ++ S.drop (p + n)) := by
            rw [hRdrop, hdata]
            simp [List.append_assoc]
          have hwlalpha : ∀ c ∈ (S.take p).drop pr.1 ++ L, Char.isAlpha c = true := by
            intro c hc
            rcases List.mem_append.mp hc with h | h
            · exact hwall c h
            · exact hLalpha c h
          have hrun : countWhile Char.isAlpha
              ((S.take p ++ code.data ++ S.drop (p + n)).drop pr.1)
              = (p - pr.1) + L.length := by
            rw [hshape, countWhile_append_of_not Char.isAlpha _ _ '-' (by decide),
              countWhile_of_all Char.isAlpha _ hwlalpha]
            rw [List.length_append, hwlen]
          rcases matchCodeLen_inv Char.isAlpha _ pr.2 hfoundR with
            ⟨k, hk45, hkrun, c, rest, hdropk, hsep, t, htd, hn2⟩
          rw [hrun] at hkrun
          have hsep_not_alpha : Char.isAlpha c = false := by
            rcases hsep with rfl | rfl <;> decide
          have hkeq : k = (p - pr.1) + L.length := by
            by_contra hkne
            have hklt : k < (p - pr.1) + L.length := by omega
            have hkwl : k < ((S.take p).drop pr.1 ++ L).length := by
              rw [List.length_append, hwlen]
              omega
            have hdropk2 : ((S.take p ++ code.data ++ S.drop (p + n)).drop pr.1).drop k
                = ((S.take p).drop pr.1 ++ L)[k] ::
                  (((S.take p).drop pr.1 ++ L).drop (k + 1) ++ '-' :: (D ++ S.drop (p + n))) := by
              rw [hshape, List.drop_append_of_le_length (by omega),
                List.drop_eq_getElem_cons hkwl, List.cons_append]
            rw [hdropk2] at hdropk
            injection hdropk with hc1 _
            have hcalpha : Char.isAlpha (((S.take p).drop pr.1 ++ L)[k]) = true :=
              hwlalpha _ (List.getElem_mem hkwl)
            rw [hc1, hsep_not_alpha] at hcalpha
            cases hcalpha
          have hdropk3 : ((S.take p ++ code.data ++ S.drop (p + n)).drop pr.1).drop k
              = '-' :: (D ++ S.drop (p + n)) := by
            rw [hkeq, hshape]
            have hlwl : ((S.take p).drop pr.1 ++ L).length = (p - pr.1) + L.length := by
              rw [List.length_append, hwlen]
            rw [← hlwl]
            exact List.drop_left _ _
          rw [hdropk3] at hdropk
          injection hdropk with _ hrest
          have htge : D.length ≤ t := by
            rcases matchTailDigits_inv rest t htd with ⟨h3d, hcases⟩
            have hcw : D.length ≤ countWhile Char.isDigit rest := by
              rw [← hrest, countWhile_append_of_all Char.isDigit D _ hD]
              omega
            have hmin : D.length ≤ min (countWhile Char.isDigit rest) 5 := le_min hcw h5
            rcases hcases with h | ⟨h, _⟩ <;> omega
          have hcode_len : code.data.length = L.length + 1 + D.length := by
            rw [hdata]
            simp only [List.length_append, List.length_cons]
            omega
          omega
    -- assemble the count
    have hccR := ccList_skip Char.isAlpha pr.1 _ hprefixR
    rw [hccR]
    have hRdec := ccList_match_some Char.isAlpha _ pr.2 hfoundR
    rw [hRdec]
    have hRlen2 : (S.take p ++ code.data).length = p + code.data.length := by
      rw [List.length_append, hprelen]
    obtain ⟨e, he⟩ : ∃ e, pr.1 + pr.2 = (S.take p ++ code.data).length + e :=
      ⟨pr.1 + pr.2 - (p + code.data.length), by rw [hRlen2]; omega⟩
    have hRtail : ((S.take p ++ code.data ++ S.drop (p + n)).drop pr.1).drop pr.2
        = (S.drop (p + n)).drop e := by
      rw [List.drop_drop, he]
      have hassoc2 : S.take p ++ code.data ++ S.drop (p + n)
          = (S.take p ++ code.data) ++ S.drop (p + n) := rfl
      rw [hassoc2, List.drop_append]
    rw [hRtail]
    have hzero : ccList Char.isAlpha ((S.drop (p + n)).drop e) = 0 := by
      apply ccList_eq_zero_of_forall
      intro j
      rw [List.drop_drop]
      exact hsufnone (e + j)
    rw [hzero]

theorem rstrip_pointwise_none (stem : String)
    (hs : searchCode Char.isAlpha stem.data = none) :
    ∀ j, matchCodeLen Char.isAlpha ((pyRStripWS stem.data).drop j) = none := by
  have hpointS : ∀ j, matchCodeLen Char.isAlpha (stem.data.drop j) = none :=
    searchCode_none_forall Char.isAlpha stem.data hs
  rcases pyRStripWS_decomp stem.data with ⟨w, hdecomp, hws⟩
  intro j
  by_cases hj : j ≤ (pyRStripWS stem.data).length
  · have hstem : stem.data.drop j = (pyRStripWS stem.data).drop j ++ w := by
      conv_lhs => rw [hdecomp]
      exact List.drop_append_of_le_length hj
    rcases w with _ | ⟨b, w'⟩
    · have := hpointS j
      rw [hstem, List.append_nil] at this
      exact this
    · have hblock : blockingChar Char.isAlpha b := blocking_of_ws b (hws b (by simp))
      have := hpointS j
      rw [hstem, matchCodeLen_append_blocked Char.isAlpha _ w' b hblock] at this
      exact this
  · rw [List.drop_eq_nil_of_le (by omega)]
    exact matchCodeLen_nil Char.isAlpha

theorem searchCode_bracket (u : List Char) (code : String)
    (hu : searchCode Char.isAlpha u = none)
    (hcode : isCanonicalCode code = true) :
    searchCode Char.isAlpha (u ++ ' ' :: '[' :: (code.data ++ [']']))
      = some (u.length + 2, code.data.length) := by
  have hbl : blockingChar Char.isAlpha ' ' := blocking_of_ws ' ' (by decide)
  rw [searchCode_append_blocked Char.isAlpha ' ' hbl u ('[' :: (code.data ++ [']'])) hu]
  have hm1 : matchCodeLen Char.isAlpha ('[' :: (code.data ++ [']'])) = none :=
    matchCodeLen_of_nonletter_head Char.isAlpha '[' _ (by decide)
  have hmatch : matchCodeLen Char.isAlpha (code.data ++ [']']) = some code.data.length :=
    matchCodeLen_canonical_exact code hcode [']']
      (Or.inr ⟨']', [], rfl, by decide, by decide⟩)
  rcases isCanonicalCode_inv code hcode with ⟨L, D, hdata, hL45, hLup, _, _, _⟩
  rcases L with _ | ⟨c0, L'⟩
  · rw [List.length_nil] at hL45
    omega
  · have hcons : code.data ++ [']'] = c0 :: (L' ++ '-' :: D ++ [']']) := by
      rw [hdata]
      simp [List.append_assoc]
    have hinner : searchCode Char.isAlpha (code.data ++ [']'])
        = some (0, code.data.length) := by
      rw [hcons] at hmatch ⊢
      simp only [searchCode, hmatch]
    have hmid : searchCode Char.isAlpha ('[' :: (code.data ++ [']']))
        = some (1, code.data.length) := by
      simp only [searchCode, hm1, hinner, Option.map_some']
    rw [hmid]
    simp only [Option.map_some', Option.some.injEq, Prod.mk.injEq]
    constructor
    · omega
    · trivial

/-- The list underlying `build_new_stem` in the append branch. -/
theorem build_new_stem_false_data (stem code : String) :
    (build_new_stem stem code false).data
      = pyRStripWS stem.data ++ ' ' :: '[' :: (code.data ++ [']']) := by
  have hd : ∀ s t : String, (s ++ t).data = s.data ++ t.data := fun s t => rfl
  show (((String.mk (pyRStripWS stem.data) ++ " [") ++ code) ++ "]").data = _
  rw [hd, hd, hd]
  show ((pyRStripWS stem.data ++ [' ', '[']) ++ code.data) ++ [']'] = _
  simp [List.append_assoc]

theorem build_new_stem_true_eq (s code : String) (p n : Nat)
    (h : searchCode Char.isAlpha s.data = some (p, n)) :
    build_new_stem s code true
      = String.mk (s.data.take p ++ code.data ++ s.data.drop (p + n)) := by
  unfold build_new_stem
  rw [h]
  rfl

/-- C5 (counterexample to the claim as stated): for the stem
`"SLUS-00001 SLUS-00001"`, which already contains two grammar-matching
tokens, `build_new_stem` replaces only the first occurrence
(`re.sub(..., count=1)` replaces it by the identical canonical code, leaving
the stem unchanged), so the result contains two canonical code tokens, not
exactly one. -/
theorem C5_exactly_one_counterexample :
    isCanonicalCode "SLUS-00001" = true
    ∧ build_new_stem "SLUS-00001 SLUS-00001" "SLUS-00001" true
        = "SLUS-00001 SLUS-00001"
    ∧ count_code_tokens (build_new_stem "SLUS-00001 SLUS-00001" "SLUS-00001" true) = 2 := by
  refine ⟨by decide, by decide, by decide⟩

/-- C5 (amended): for every canonical code, compose appends the code as a
bracketed suffix to the right-trimmed stem when no code token is present,
and replaces the first grammar-matching occurrence (leaving the rest of the
stem untouched) when one is; the result contains exactly one
grammar-matching code token provided the input stem contained at most one
(none in the append branch, exactly one in the replace branch). -/
theorem C5_compose_amended (stem code : String) (hcode : isCanonicalCode code = true) :
    (count_code_tokens stem = 0 →
        build_new_stem stem code false
          = String.mk (pyRStripWS stem.data) ++ " [" ++ code ++ "]"
        ∧ count_code_tokens (build_new_stem stem code false) = 1)
    ∧ (∀ p n : Nat, searchCode Char.isAlpha stem.data = some (p, n) →
        count_code_tokens stem = 1 →
        build_new_stem stem code true
          = String.mk (stem.data.take p ++ code.data ++ stem.data.drop (p + n))
        ∧ count_code_tokens (build_new_stem stem code true) = 1) := by
  constructor
  · intro hzero
    have hsnone : searchCode Char.isAlpha stem.data = none := by
      apply searchCode_eq_none_of_forall
      exact ccList_zero_forall Char.isAlpha stem.data hzero
    refine ⟨rfl, ?_⟩
    show ccList Char.isAlpha (build_new_stem stem code false).data = 1
    rw [build_new_stem_false_data stem code]
    exact ccList_append_bracket stem code hsnone hcode
  · intro p n hsp hone
    have hbuild := build_new_stem_true_eq stem code p n hsp
    refine ⟨hbuild, ?_⟩
    rw [hbuild]
    show ccList Char.isAlpha
        (stem.data.take p ++ code.data ++ stem.data.drop (p + n)) = 1
    exact ccList_replace stem.data code p n hsp hone hcode

/-- Witness for C5's amended statement at the spec §8 examples:
`compose("Game", "SLUS-00001", absent) = "Game [SLUS-00001]"` with exactly
one token, and `compose("Game [SLUS_00001]", "SLUS-00001", present)
= "Game [SLUS-00001]"`. -/
theorem C5_compose_amended_witness :
    build_new_stem "Game" "SLUS-00001" false = "Game [SLUS-00001]"
    ∧ count_code_tokens (build_new_stem "Game" "SLUS-00001" false) = 1
    ∧ build_new_stem "Game [SLUS_00001]" "SLUS-00001" true = "Game [SLUS-00001]"
    ∧ count_code_tokens (build_new_stem "Game [SLUS_00001]" "SLUS-00001" true) = 1 := by
  have h1 := (C5_compose_amended "Game" "SLUS-00001" (by decide)).1 (by decide)
  have h2 := (C5_compose_amended "Game [SLUS_00001]" "SLUS-00001" (by decide)).2
    6 10 (by decide) (by decide)
  exact ⟨h1.1.trans (by decide), h1.2, h2.1.trans (by decide), h2.2⟩

/-- C6: for every stem without an existing code token and every canonical
code, extracting from the composed stem returns exactly that canonical code,
and composing again on compose's own output is a no-op. -/
theorem C6_roundtrip (stem code : String) (hcode : isCanonicalCode code = true)
    (hnone : extract_code_from_name stem = none) :
    extract_code_from_name (build_new_stem stem code false) = some code
    ∧ build_new_stem (build_new_stem stem code false) code true
        = build_new_stem stem code false := by
  have hsnone : searchCode Char.isAlpha stem.data = none := by
    rcases hsp : searchCode Char.isAlpha stem.data with _ | pr
    · rfl
    · unfold extract_code_from_name at hnone
      rw [hsp] at hnone
      cases hnone
  have hunone : searchCode Char.isAlpha (pyRStripWS stem.data) = none :=
    searchCode_eq_none_of_forall Char.isAlpha _ (rstrip_pointwise_none stem hsnone)
  have hdata := build_new_stem_false_data stem code
  have hsearch' : searchCode Char.isAlpha (build_new_stem stem code false).data
      = some ((pyRStripWS stem.data).length + 2, code.data.length) := by
    rw [hdata]
    exact searchCode_bracket (pyRStripWS stem.data) code hunone hcode
  have hshape : (build_new_stem stem code false).data
      = ((pyRStripWS stem.data ++ [' ', '[']) ++ code.data) ++ [']'] := by
    rw [hdata]
    simp [List.append_assoc]
  have hlen2 : (pyRStripWS stem.data ++ [' ', '[']).length
      = (pyRStripWS stem.data).length + 2 := by
    simp
  have hdrop2 : (build_new_stem stem code false).data.drop
      ((pyRStripWS stem.data).length + 2) = code.data ++ [']'] := by
    rw [hshape, List.append_assoc, ← hlen2]
    exact List.drop_left _ _
  constructor
  · unfold extract_code_from_name
    rw [hsearch']
    simp only [Option.map_some', Option.some.injEq]
    rw [hdrop2, List.take_left]
  · have hbuild := build_new_stem_true_eq (build_new_stem stem code false) code
      ((pyRStripWS stem.data).length + 2) code.data.length hsearch'
    rw [hbuild]
    have htake : (build_new_stem stem code false).data.take
        ((pyRStripWS stem.data).length + 2) = pyRStripWS stem.data ++ [' ', '['] := by
      rw [hshape, List.append_assoc, ← hlen2]
      exact List.take_left _ _
    have hlen3 : ((pyRStripWS stem.data ++ [' ', '[']) ++ code.data).length
        = (pyRStripWS stem.data).length + 2 + code.data.length := by
      simp
      omega
    have hdrop3 : (build_new_stem stem code false).data.drop
        ((pyRStripWS stem.data).length + 2 + code.data.length) = [']'] := by
      rw [hshape, ← hlen3]
      exact List.drop_left _ _
    rw [htake, hdrop3]
    have hfinal : (pyRStripWS stem.data ++ [' ', '[']) ++ code.data ++ [']']
        = (build_new_stem stem code false).data := by
      rw [hshape]
    rw [hfinal]

/-- Witness for C6 at `stem = "Game"`, `code = "SLUS-00001"`. -/
theorem C6_roundtrip_witness :
    extract_code_from_name (build_new_stem "Game" "SLUS-00001" false) = some "SLUS-00001"
    ∧ build_new_stem (build_new_stem "Game" "SLUS-00001" false) "SLUS-00001" true
        = build_new_stem "Game" "SLUS-00001" false :=
  C6_roundtrip "Game" "SLUS-00001" (by decide) (by decide)
